import Mathlib

/-!
Verification of the attribution-graph normalization engine and query evaluator

Shallow embedding of the two core subsystems of the `cyber_terror_viz`
repository:

* `normalizeGeo` (the graph normalization engine in the network-graph
  component): edge canonicalization, per-edge role classification, per-node
  role aggregation, node splitting, edge rewrite, validation and degree
  recomputation;
* `analyzeQuery` (the free-text query evaluator in the query panel).

JavaScript's insertion-ordered `Map`, `Set` and plain-object accumulators are
modelled as association lists / duplicate-free lists that preserve insertion
order.  Strings are Lean `String`s; JS numbers that the code only adds are
modelled as `Int` (weights) and `Nat` (counts / degrees).
-/

namespace CyberViz

/-- JS `Set.add`: append the element unless already present
(insertion order preserved). -/
def jsSetAdd [DecidableEq α] (s : List α) (x : α) : List α :=
  if x ∈ s then s else s ++ [x]

/-- JS `new Set(list)` / iterating a `Set` built by repeated `add`:
insertion-ordered deduplication. -/
def jsSetOfList [DecidableEq α] (l : List α) : List α :=
  l.foldl jsSetAdd []

/-- JS `Map.get` on an insertion-ordered association list. -/
def mapGet [DecidableEq κ] : List (κ × α) → κ → Option α
  | [], _ => none
  | p :: t, k => if p.1 = k then some p.2 else mapGet t k

/-- JS `Map.has`. -/
def mapHas [DecidableEq κ] : List (κ × α) → κ → Bool
  | [], _ => false
  | p :: t, k => decide (p.1 = k) || mapHas t k

/-- JS `Map.set`: update in place when the key exists (keeping its position),
otherwise append.  Keys are unique in a JS map, so replacing the first
occurrence is the same operation. -/
def mapSet [DecidableEq κ] : List (κ × α) → κ → α → List (κ × α)
  | [], k, v => [(k, v)]
  | p :: t, k, v => if p.1 = k then (k, v) :: t else p :: mapSet t k v

/-- Lookup with a default: `(mapGet m k) || d`. -/
def mapGetD [DecidableEq κ] (m : List (κ × α)) (k : κ) (d : α) : α :=
  (mapGet m k).getD d

/-- Substring test on character lists (JS `String.prototype.includes`). -/
def listContainsSub (pat : List Char) : List Char → Bool
  | [] => pat.isPrefixOf ([] : List Char)
  | c :: rest => pat.isPrefixOf (c :: rest) || listContainsSub pat rest

/-- JS `s.includes(pat)`. -/
def strContains (s pat : String) : Bool :=
  listContainsSub pat.toList s.toList

/-- JS `s.toLowerCase()` (the data is ASCII): lowercase every character. -/
def strLower (s : String) : String := String.mk (s.data.map Char.toLower)

/-- JS `s.trim()`: strip whitespace from both ends. -/
def strTrim (s : String) : String :=
  String.mk (((s.data.dropWhile Char.isWhitespace).reverse.dropWhile Char.isWhitespace).reverse)

/-! ## Data model (input document and normalized graph) -/

/-- A raw edge endpoint: a plain id string, or an object carrying an `id`
field (`typeof l.source === 'object' ? l.source.id : l.source`). -/
inductive EndRef
  | plain (id : String)
  | obj (id : String)
deriving DecidableEq

/-- Resolve an endpoint to its id, as the source does at each use site. -/
def EndRef.resolve : EndRef → String
  | .plain i => i
  | .obj i => i

/-- A node record of the raw input document; `type` and `degree` optional. -/
structure RawNode where
  id : String
  type : Option String
  degree : Option Int
deriving DecidableEq

/-- A link record of the raw input document; `weight`/`type` optional. -/
structure RawLink where
  source : EndRef
  target : EndRef
  weight : Option Int
  type : Option String
deriving DecidableEq

/-- The raw document handed to normalization: both collections may be
missing entirely (`networkData.nodes || []`, `networkData.links || []`). -/
structure RawGraph where
  nodes : Option (List RawNode)
  links : Option (List RawLink)
deriving DecidableEq

/-- A canonical link: plain string endpoints, weight defaulted to 1,
type defaulted to the empty string. -/
structure Link where
  source : String
  target : String
  weight : Int
  type : String
deriving DecidableEq

/-- A normalized node. -/
structure Node where
  id : String
  type : String
  degree : Nat
deriving DecidableEq

/-- A normalized graph. -/
structure Graph where
  nodes : List Node
  links : List Link
deriving DecidableEq

/-! ## normalizeGeo, stage by stage -/

/-- First pass of `normalizeGeo`: normalize links to string ids
(`l.weight ?? 1`, `l.type || ''`). -/
def canonLinks (g : RawGraph) : List Link :=
  (g.links.getD []).map (fun l =>
    { source := l.source.resolve
      target := l.target.resolve
      weight := l.weight.getD 1
      type := l.type.getD "" })

/-- All node ids mentioned in links (a JS `Set`, insertion-ordered). -/
def allNodeIds (g : RawGraph) : List String :=
  (canonLinks g).foldl (fun s l => jsSetAdd (jsSetAdd s l.source) l.target) []

/-- The base `nodesById` map built from the raw node list. -/
def baseNodesById (g : RawGraph) : List (String × RawNode) :=
  (g.nodes.getD []).foldl (fun m n => mapSet m n.id n) []

/-- One healing step: synthesize `{ id, type: 'actor', degree: 0 }` when the
id is not yet present. -/
def healStep (m : List (String × RawNode)) (i : String) : List (String × RawNode) :=
  if mapHas m i then m
  else mapSet m i { id := i, type := some "actor", degree := some 0 }

/-- Healed `nodesById`: any id referenced in links but missing from
the node list is synthesized as `{ id, type: 'actor', degree: 0 }`. -/
def nodesById (g : RawGraph) : List (String × RawNode) :=
  (allNodeIds g).foldl healStep (baseNodesById g)

/-- A per-edge-endpoint semantic role. -/
inductive Role
  | sponsor
  | actor
  | victim
deriving DecidableEq

/-- Per-edge source role: `sponsor` when the lowercased type contains
`sponsor_to`, else `actor`. -/
def sourceRoleOf (l : Link) : Role :=
  if strContains (strLower l.type) "sponsor_to" then .sponsor else .actor

/-- Per-edge target role: `victim` when the lowercased type contains
`_to_victim` or `to_victim`, else `actor`. -/
def targetRoleOf (l : Link) : Role :=
  if strContains (strLower l.type) "_to_victim" || strContains (strLower l.type) "to_victim"
  then .victim else .actor

/-- A link together with its per-edge role classification. -/
structure LinkRole where
  link : Link
  sourceRole : Role
  targetRole : Role
deriving DecidableEq

/-- Role detection for each link. -/
def linkRoles (g : RawGraph) : List LinkRole :=
  (canonLinks g).map (fun l => ⟨l, sourceRoleOf l, targetRoleOf l⟩)

/-- One aggregation step: add `r` to the role set tracked for id `i`. -/
def addRole (m : List (String × List Role)) (i : String) (r : Role) :
    List (String × List Role) :=
  mapSet m i (jsSetAdd ((mapGet m i).getD []) r)

/-- One aggregation step per link: track the source role, then the target
role. -/
def rolesStep (m : List (String × List Role)) (lr : LinkRole) : List (String × List Role) :=
  addRole (addRole m lr.link.source lr.sourceRole) lr.link.target lr.targetRole

/-- Aggregate roles per node over all links. -/
def nodeRoles (g : RawGraph) : List (String × List Role) :=
  (linkRoles g).foldl rolesStep []

/-- The aggregated role set of a node id (empty when the id never occurs). -/
def aggregatedRoles (g : RawGraph) (i : String) : List Role :=
  (mapGet (nodeRoles g) i).getD []

/-- Ids that need splitting: aggregated roles contain both sponsor and
victim. -/
def needsSplit (g : RawGraph) : List String :=
  (nodeRoles g).foldl
    (fun acc p => if Role.sponsor ∈ p.2 ∧ Role.victim ∈ p.2 then jsSetAdd acc p.1 else acc)
    []

/-- Split-aware id routing (the source's `getNodeId` closure): non-split ids
are unchanged; split ids route to the `[S]` variant for role sponsor, the
`[T]` variant for role victim, and fall back to `[S]` for the ambiguous
actor role. -/
def getNodeId (ns : List String) (originalId : String) (role : Role) : String :=
  if originalId ∉ ns then originalId
  else match role with
    | .sponsor => originalId ++ " [S]"
    | .victim => originalId ++ " [T]"
    | .actor => originalId ++ " [S]"

/-- Final type of a non-split node: role precedence sponsor > victim over
the aggregated set, else the raw type (`node.type || 'actor'`). -/
def resolvedType (g : RawGraph) (i : String) (n : RawNode) : String :=
  let base := match n.type with
    | some t => if t = "" then "actor" else t
    | none => "actor"
  match mapGet (nodeRoles g) i with
  | some roles =>
      if Role.sponsor ∈ roles then "sponsor"
      else if Role.victim ∈ roles then "victim"
      else base
  | none => base

/-- Build the new node list: split ids emit the two variants, others keep
their id with the resolved type; degrees start at 0. -/
def newNodes (g : RawGraph) : List Node :=
  (nodesById g).flatMap (fun p =>
    if p.1 ∈ needsSplit g then
      [⟨p.1 ++ " [S]", "sponsor", 0⟩, ⟨p.1 ++ " [T]", "victim", 0⟩]
    else
      [⟨p.1, resolvedType g p.1 p.2, 0⟩])

/-- Rewire all links using role-based id routing. -/
def newLinks (g : RawGraph) : List Link :=
  (linkRoles g).map (fun lr =>
    { source := getNodeId (needsSplit g) lr.link.source lr.sourceRole
      target := getNodeId (needsSplit g) lr.link.target lr.targetRole
      weight := lr.link.weight
      type := lr.link.type })

/-- The set of all new node ids. -/
def newNodeIds (g : RawGraph) : List String :=
  jsSetOfList ((newNodes g).map (·.id))

/-- Links whose source or target is not a new node id. -/
def invalidLinks (g : RawGraph) : List Link :=
  (newLinks g).filter (fun l =>
    !(decide (l.source ∈ newNodeIds g)) || !(decide (l.target ∈ newNodeIds g)))

/-- Links whose endpoints both resolve (kept when some link is invalid). -/
def validLinks (g : RawGraph) : List Link :=
  (newLinks g).filter (fun l =>
    decide (l.source ∈ newNodeIds g) && decide (l.target ∈ newNodeIds g))

/-- One degree step per link: increment the source counter, then the target
counter (a self-loop contributes 2). -/
def degStep (m : List (String × Nat)) (l : Link) : List (String × Nat) :=
  let m1 := mapSet m l.source (mapGetD m l.source 0 + 1)
  mapSet m1 l.target (mapGetD m1 l.target 0 + 1)

/-- The counters initialized to 0 for every new node id. -/
def degInit (g : RawGraph) : List (String × Nat) :=
  (newNodes g).foldl (fun m n => mapSet m n.id 0) []

/-- Degree recomputation over the new links: each endpoint occurrence
increments its node's counter (`deg.get(x) || 0` + 1). -/
def degMap (g : RawGraph) : List (String × Nat) :=
  (newLinks g).foldl degStep (degInit g)

/-- The full normalization: when invalid links exist they are filtered out
and degrees are left at 0 (the early return); otherwise degrees are
recomputed from the new links. -/
def normalizeGeo (g : RawGraph) : Graph :=
  if (invalidLinks g).length > 0 then
    { nodes := newNodes g, links := validLinks g }
  else
    { nodes := (newNodes g).map (fun n => { n with degree := mapGetD (degMap g) n.id 0 })
      links := newLinks g }

/-- The fetch handler's validation and normalization for the geo network:
`if (!raw || (!raw.nodes && !raw.links)) throw new Error(...)`. -/
def ingestGeo (raw : Option RawGraph) : Except String Graph :=
  match raw with
  | none => .error "Invalid network data structure"
  | some g =>
      if g.nodes.isNone && g.links.isNone then .error "Invalid network data structure"
      else .ok (normalizeGeo g)

/-- The raw record corresponding to a normalized node. -/
def rawOf (n : Node) : RawNode := ⟨n.id, some n.type, some (n.degree : Int)⟩

/-- The raw link corresponding to a canonical link. -/
def rawLinkOf (l : Link) : RawLink :=
  ⟨.plain l.source, .plain l.target, some l.weight, some l.type⟩

/-- A graph as re-presented to `normalizeGeo` (idempotence statements):
already-canonical links and complete node records. -/
def toRaw (g : Graph) : RawGraph :=
  { nodes := some (g.nodes.map rawOf), links := some (g.links.map rawLinkOf) }

/-! ## Query evaluator (`analyzeQuery`) -/

/-- A link of the in-memory data consumed by the query panel; after the
force simulation runs, endpoints may be node objects, hence `EndRef`. -/
structure QLink where
  source : EndRef
  target : EndRef
  weight : Int
  type : String
deriving DecidableEq

/-- The graph the query panel reads (`data.nodes` / `data.links`). -/
structure QGraph where
  nodes : List Node
  links : List QLink
deriving DecidableEq

/-- An entry of the multiple-sponsors result. -/
structure SponsorEntry where
  actor : String
  sponsorCount : Nat
  sponsors : List String
  degree : Nat
deriving DecidableEq

/-- A ranked name/count pair. -/
structure NameCount where
  name : String
  count : Int
deriving DecidableEq

/-- The five tagged result shapes of the evaluator. -/
inductive QueryResult
  | multipleSponsors (count : Nat) (results : List SponsorEntry)
  | countryTargets (sponsor : String) (results : List NameCount)
  | mostTargeted (results : List NameCount)
  | mostActive (category : String) (results : List NameCount)
  | unknown (message : String)
deriving DecidableEq

/-- Insert while keeping elements of key `≥ key x` in front of `x`:
the insertion step of a stable descending sort. -/
def insertByKeyDesc (key : α → Int) (x : α) : List α → List α
  | [] => [x]
  | y :: ys => if key y < key x then x :: y :: ys else y :: insertByKeyDesc key x ys

/-- Stable sort, descending by `key`.  JS `Array.prototype.sort` with
comparator `(a, b) => key(b) - key(a)` is required to be stable, and a
stable descending sort is extensionally unique, so this insertion sort is
the same function. -/
def stableSortByDesc (key : α → Int) (l : List α) : List α :=
  l.foldl (fun acc x => insertByKeyDesc key x acc) []

/-- The actor-type nodes of the graph. -/
def actorNodes (g : QGraph) : List Node :=
  g.nodes.filter (fun n => decide (n.type = "actor"))

/-- Edges typed `sponsor_to_actor` (lowercased, substring) targeting the
given actor id. -/
def sponsorEdgesFor (g : QGraph) (actorId : String) : List QLink :=
  g.links.filter (fun l =>
    decide (l.target.resolve = actorId) && strContains (strLower l.type) "sponsor_to_actor")

/-- Distinct source ids of those edges, in discovery order. -/
def uniqueSponsorsFor (g : QGraph) (actorId : String) : List String :=
  jsSetOfList ((sponsorEdgesFor g actorId).map (fun e => e.source.resolve))

/-- Actors backed by more than one distinct sponsor, in node-list order. -/
def multiSponsorEntries (g : QGraph) : List SponsorEntry :=
  (actorNodes g).filterMap (fun n =>
    if (uniqueSponsorsFor g n.id).length > 1 then
      some ⟨n.id, (uniqueSponsorsFor g n.id).length, uniqueSponsorsFor g n.id, n.degree⟩
    else none)

/-- JS `\w` (ASCII word character; `/i` makes case moot). -/
def isWordChar (c : Char) : Bool := c.isAlpha || c.isDigit || c = '_'

/-- JS `\s` (the common whitespace characters of the class). -/
def isSpaceChar (c : Char) : Bool :=
  c = ' ' || c = '\t' || c = '\n' || c = '\r' || c = Char.ofNat 11 || c = Char.ofNat 12

def isWordOrSpace (c : Char) : Bool := isWordChar c || isSpaceChar c

/-- Greedy capture for the tail of `/what does ([\w\s]+) target/` at a fixed
start: the longest nonempty word-or-space capture followed by `" target"`.
All characters of `" target"` are word-or-space, so candidate offsets are
bounded by the maximal word-or-space run. -/
def greedyCapture (r : List Char) : Option (List Char) :=
  let m := (r.takeWhile isWordOrSpace).length
  match ((List.range (m + 1)).reverse).find?
      (fun j => decide (1 ≤ j) && " target".toList.isPrefixOf (r.drop j)) with
  | some j => some (r.take j)
  | none => none

/-- Leftmost match of `/what does ([\w\s]+) target/i` over the lowercased
question, returning capture group 1. -/
def matchWhatDoes : List Char → Option String
  | [] => none
  | c :: rest =>
    if "what does ".toList.isPrefixOf (c :: rest) then
      match greedyCapture ((c :: rest).drop 10) with
      | some cap => some (String.mk cap)
      | none => matchWhatDoes rest
    else matchWhatDoes rest

/-- Leftmost match of `/(china|russia|iran|korea)/i` over the lowercased
question, returning capture group 1 (alternatives tried in order). -/
def matchCountryToken : List Char → Option String
  | [] => none
  | c :: rest =>
    if "china".toList.isPrefixOf (c :: rest) then some "china"
    else if "russia".toList.isPrefixOf (c :: rest) then some "russia"
    else if "iran".toList.isPrefixOf (c :: rest) then some "iran"
    else if "korea".toList.isPrefixOf (c :: rest) then some "korea"
    else matchCountryToken rest

/-- JS `q.match(/what does ([\w\s]+) target/i) || q.match(/(china|russia|iran|korea)/i)`,
keeping capture group 1. -/
def countryMatch (q : String) : Option String :=
  (matchWhatDoes q.toList).orElse (fun _ => matchCountryToken q.toList)

/-- The fixed country-name canonicalization table. -/
def countryVariations (c : String) : Option String :=
  match c with
  | "china" => some "China"
  | "russia" => some "Russian Federation"
  | "iran" => some "Iran (Islamic Republic of)"
  | "north korea" => some "Korea (Democratic People\x27s Republic of)"
  | _ => none

/-- JS `link.weight || 1`: a zero weight is falsy and becomes 1. -/
def jsWeight (w : Int) : Int := if w = 0 then 1 else w

/-- JS `acc[k] = (acc[k] || 0) + w` on a plain-object accumulator; the node
names in the data are not integer-like strings, so JS enumeration order is
insertion order, as here. -/
def bumpEntry (m : List (String × Int)) (k : String) (w : Int) : List (String × Int) :=
  mapSet m k (mapGetD m k 0 + w)

/-- Weight totals per target for edges attributed to the queried country. -/
def countryTargetsAgg (g : QGraph) (sponsorName country : String) : List (String × Int) :=
  g.links.foldl (fun m l =>
    let sourceId := l.source.resolve
    if sourceId = sponsorName ∨ (sourceId ≠ "" ∧ strContains (strLower sourceId) (strLower country))
    then bumpEntry m (l.target.resolve) (jsWeight l.weight)
    else m) []

/-- Weight totals per target over edges whose type mentions victim/target. -/
def mostTargetedAgg (g : QGraph) : List (String × Int) :=
  g.links.foldl (fun m l =>
    let t := strLower l.type
    if strContains t "victim" || strContains t "target"
    then bumpEntry m (l.target.resolve) (jsWeight l.weight)
    else m) []

/-- Weight totals per source over edges whose source node has the given
resolved type. -/
def mostActiveAgg (g : QGraph) (cat : String) : List (String × Int) :=
  g.links.foldl (fun m l =>
    let sid := l.source.resolve
    match g.nodes.find? (fun n => decide (n.id = sid)) with
    | some n => if n.type = cat then bumpEntry m sid (jsWeight l.weight) else m
    | none => m) []

/-- Sort entries descending by count (stable), keep the first `nn`. -/
def topByCount (nn : Nat) (m : List (String × Int)) : List NameCount :=
  ((stableSortByDesc (fun p => p.2) m).take nn).map (fun p => ⟨p.1, p.2⟩)

/-- Trigger of the multiple-sponsors intent. -/
def trigMultiple (q : String) : Bool :=
  strContains q "multiple" && (strContains q "sponsor" || strContains q "backed")

/-- Trigger of the country-targets intent. -/
def trigCountry (q : String) : Bool :=
  (countryMatch q).isSome && strContains q "target"

/-- Trigger of the most-targeted intent. -/
def trigMostTargeted (q : String) : Bool := strContains q "most targeted"

/-- Trigger of the most-active intent. -/
def trigMostActive (q : String) : Bool :=
  strContains q "most active" && (strContains q "sponsor" || strContains q "actor")

/-- The fixed guidance message of the unknown result. -/
def unknownMessage : String :=
  "Query not recognized. Try: \"which actors have multiple sponsors?\", \"what does China target most?\", \"most targeted countries\", or \"most active sponsors\""

/-- The query evaluator: ordered intent classification, first match wins. -/
def analyzeQuery (g : QGraph) (queryText : String) : QueryResult :=
  let q := strLower queryText
  if trigMultiple q then
    let entries := multiSponsorEntries g
    .multipleSponsors entries.length
      (stableSortByDesc (fun e => (e.sponsorCount : Int)) entries)
  else if trigCountry q then
    let country := strTrim ((countryMatch q).getD "")
    let sponsorName := (countryVariations (strLower country)).getD country
    .countryTargets sponsorName (topByCount 10 (countryTargetsAgg g sponsorName country))
  else if trigMostTargeted q then
    .mostTargeted (topByCount 15 (mostTargetedAgg g))
  else if trigMostActive q then
    let cat := if strContains q "sponsor" then "sponsor" else "actor"
    .mostActive cat (topByCount 15 (mostActiveAgg g cat))
  else
    .unknown unknownMessage

/-! ## Derived quantities and concrete inputs used by the verification -/

/-- Number of edge endpoint occurrences referencing an id: source
occurrences plus target occurrences (a self-loop counts twice). -/
def endpointOcc (x : String) (ls : List Link) : Nat :=
  (ls.filter (fun l => decide (l.source = x))).length +
    (ls.filter (fun l => decide (l.target = x))).length

/-- Input whose node `X` aggregates all three roles: sponsor (source of a
`sponsor_to` edge), victim (target of a `to_victim` edge) and actor (source
of an untyped edge). -/
def exC1 : RawGraph :=
  ⟨some [], some [⟨.plain "X", .plain "A", none, some "sponsor_to_actor"⟩,
                  ⟨.plain "B", .plain "X", none, some "actor_to_victim"⟩,
                  ⟨.plain "X", .plain "C", none, none⟩]⟩

/-- A one-edge input with both endpoints healed. -/
def exC2 : RawGraph := ⟨some [], some [⟨.plain "X", .plain "Y", none, none⟩]⟩

/-- Input whose raw node id `X [S]` collides with the sponsor variant of the
split node `X`, duplicating an output id. -/
def exC3 : RawGraph :=
  ⟨some [⟨"X [S]", some "actor", none⟩],
   some [⟨.plain "X", .plain "X", none, some "sponsor_to_victim"⟩]⟩

/-- A document with a nodes collection but no links collection at all. -/
def exC4 : RawGraph := ⟨some [⟨"A", some "actor", some 0⟩], none⟩

/-- A node with an arbitrary raw type and no incident edges. -/
def exC5 : RawGraph := ⟨some [⟨"N", some "banana", none⟩], some []⟩

/-- An input with one split node, exercising all routing cases. -/
def exC10 : RawGraph :=
  ⟨some [], some [⟨.plain "X", .plain "A", none, some "sponsor_to_actor"⟩,
                  ⟨.plain "B", .plain "X", none, some "actor_to_victim"⟩]⟩

/-- The spec scenario: actor `A` is backed by sponsors `X` and `Y`, actor
`B` by `X` only. -/
def exC7 : QGraph :=
  ⟨[⟨"X", "sponsor", 2⟩, ⟨"Y", "sponsor", 1⟩, ⟨"A", "actor", 3⟩, ⟨"B", "actor", 1⟩],
   [⟨.plain "X", .plain "A", 1, "sponsor_to_actor"⟩,
    ⟨.plain "Y", .plain "A", 1, "sponsor_to_actor"⟩,
    ⟨.plain "X", .plain "B", 1, "sponsor_to_actor"⟩]⟩

/-- An arbitrary small graph for the evaluator's fallback scenario. -/
def exC8 : QGraph := ⟨[⟨"A", "actor", 0⟩], []⟩

/-- A graph with no conflicting roles that normalization still rewrites:
`A`'s type is reclassified to sponsor and the dangling `B` is healed in. -/
def exC9 : Graph := ⟨[⟨"A", "actor", 0⟩], [⟨"A", "B", 1, "sponsor_to_actor"⟩]⟩

/-- A fully normalized graph: consistent types, no dangling endpoints, no
conflicting roles. -/
def exC9w : Graph :=
  ⟨[⟨"S1", "sponsor", 1⟩, ⟨"A1", "actor", 1⟩], [⟨"S1", "A1", 1, "sponsor_to_actor"⟩]⟩

/-! ## Lemmas: insertion-ordered sets -/

theorem mem_jsSetAdd [DecidableEq α] {s : List α} {x y : α} :
    x ∈ jsSetAdd s y ↔ x ∈ s ∨ x = y := by
  unfold jsSetAdd
  split
  · rename_i h
    constructor
    · exact Or.inl
    · rintro (hx | rfl)
      · exact hx
      · exact h
  · simp [List.mem_append]

theorem nodup_jsSetAdd [DecidableEq α] {s : List α} (h : s.Nodup) (y : α) :
    (jsSetAdd s y).Nodup := by
  unfold jsSetAdd
  split
  · exact h
  · rename_i hy
    rw [List.nodup_append]
    refine ⟨h, List.nodup_singleton y, ?_⟩
    intro a ha hb
    rw [List.mem_singleton] at hb
    subst hb
    exact hy ha

theorem mem_foldl_jsSetAdd [DecidableEq α] (l : List α) (s : List α) (x : α) :
    x ∈ l.foldl jsSetAdd s ↔ x ∈ s ∨ x ∈ l := by
  induction l generalizing s with
  | nil => simp
  | cons a t ih =>
    simp only [List.foldl_cons, ih, mem_jsSetAdd, List.mem_cons]
    tauto

theorem mem_jsSetOfList [DecidableEq α] (l : List α) (x : α) :
    x ∈ jsSetOfList l ↔ x ∈ l := by
  unfold jsSetOfList
  simp [mem_foldl_jsSetAdd]

theorem nodup_jsSetOfList [DecidableEq α] (l : List α) : (jsSetOfList l).Nodup := by
  unfold jsSetOfList
  have h : ∀ (l : List α) (s : List α), s.Nodup → (l.foldl jsSetAdd s).Nodup := by
    intro l
    induction l with
    | nil => intro s hs; simpa using hs
    | cons a t ih => intro s hs; exact ih _ (nodup_jsSetAdd hs a)
  exact h l [] List.nodup_nil

/-! ## Lemmas: insertion-ordered maps -/

theorem mapGet_mapSet_self [DecidableEq κ] (m : List (κ × α)) (k : κ) (v : α) :
    mapGet (mapSet m k v) k = some v := by
  induction m with
  | nil => simp [mapSet, mapGet]
  | cons p t ih =>
    by_cases h : p.1 = k
    · simp [mapSet, mapGet, h]
    · simp [mapSet, mapGet, h, ih]

theorem mapGet_mapSet_ne [DecidableEq κ] (m : List (κ × α)) {k k' : κ} (v : α)
    (h : k' ≠ k) : mapGet (mapSet m k v) k' = mapGet m k' := by
  have hk : k ≠ k' := fun hh => h hh.symm
  induction m with
  | nil => simp [mapSet, mapGet, hk]
  | cons p t ih =>
    obtain ⟨a, b⟩ := p
    by_cases hp : a = k
    · subst hp
      simp [mapSet, mapGet, hk]
    · simp [mapSet, mapGet, hp, ih]

theorem mapGetD_mapSet_self [DecidableEq κ] (m : List (κ × α)) (k : κ) (v d : α) :
    mapGetD (mapSet m k v) k d = v := by
  simp [mapGetD, mapGet_mapSet_self]

theorem mapGetD_mapSet_ne [DecidableEq κ] (m : List (κ × α)) {k k' : κ} (v d : α)
    (h : k' ≠ k) : mapGetD (mapSet m k v) k' d = mapGetD m k' d := by
  simp [mapGetD, mapGet_mapSet_ne _ _ h]

theorem mapHas_iff_mem_keys [DecidableEq κ] (m : List (κ × α)) (k : κ) :
    mapHas m k = true ↔ k ∈ m.map (·.1) := by
  induction m with
  | nil => simp [mapHas]
  | cons p t ih =>
    simp only [mapHas, Bool.or_eq_true, decide_eq_true_eq, List.map_cons, List.mem_cons, ih]
    constructor
    · rintro (h | h)
      · exact Or.inl h.symm
      · exact Or.inr h
    · rintro (h | h)
      · exact Or.inl h.symm
      · exact Or.inr h

theorem mem_keys_mapSet [DecidableEq κ] (m : List (κ × α)) (k k' : κ) (v : α) :
    k ∈ (mapSet m k' v).map (·.1) ↔ k ∈ m.map (·.1) ∨ k = k' := by
  induction m with
  | nil => simp [mapSet]
  | cons p t ih =>
    obtain ⟨a, b⟩ := p
    by_cases h : a = k'
    · subst h
      simp [mapSet]
      tauto
    · simp only [mapSet, if_neg h, List.map_cons, List.mem_cons, ih]
      tauto

theorem mem_mapSet_elim [DecidableEq κ] {m : List (κ × α)} {k : κ} {v : α} {p : κ × α}
    (h : p ∈ mapSet m k v) : p ∈ m ∨ p = (k, v) := by
  induction m with
  | nil => simpa [mapSet] using h
  | cons q t ih =>
    by_cases hq : q.1 = k
    · simp only [mapSet, if_pos hq, List.mem_cons] at h
      rcases h with h | h
      · exact Or.inr h
      · exact Or.inl (List.mem_cons_of_mem _ h)
    · simp only [mapSet, if_neg hq, List.mem_cons] at h
      rcases h with h | h
      · exact Or.inl (h ▸ List.mem_cons_self _ _)
      · rcases ih h with h' | h'
        · exact Or.inl (List.mem_cons_of_mem _ h')
        · exact Or.inr h'

theorem keys_mapSet_of_has [DecidableEq κ] {m : List (κ × α)} {k : κ} (v : α)
    (h : mapHas m k = true) : (mapSet m k v).map (·.1) = m.map (·.1) := by
  induction m with
  | nil => simp [mapHas] at h
  | cons p t ih =>
    by_cases hp : p.1 = k
    · simp [mapSet, hp]
    · simp only [mapHas, decide_eq_true_eq, hp, Bool.false_or] at h
      simp [mapSet, hp, ih h]

theorem keys_mapSet_of_not_has [DecidableEq κ] {m : List (κ × α)} {k : κ} (v : α)
    (h : ¬ mapHas m k = true) : (mapSet m k v).map (·.1) = m.map (·.1) ++ [k] := by
  induction m with
  | nil => simp [mapSet]
  | cons p t ih =>
    simp only [mapHas, Bool.or_eq_true, decide_eq_true_eq, not_or] at h
    simp [mapSet, h.1, ih h.2]

theorem nodupKeys_mapSet [DecidableEq κ] {m : List (κ × α)} (k : κ) (v : α)
    (h : (m.map (·.1)).Nodup) : ((mapSet m k v).map (·.1)).Nodup := by
  by_cases hh : mapHas m k = true
  · rw [keys_mapSet_of_has v hh]; exact h
  · rw [keys_mapSet_of_not_has v hh]
    rw [mapHas_iff_mem_keys] at hh
    rw [List.nodup_append]
    refine ⟨h, List.nodup_singleton k, ?_⟩
    intro a ha hb
    rw [List.mem_singleton] at hb
    subst hb
    exact hh ha

theorem mem_of_mapGet_eq_some [DecidableEq κ] {m : List (κ × α)} {k : κ} {v : α}
    (h : mapGet m k = some v) : (k, v) ∈ m := by
  induction m with
  | nil => simp [mapGet] at h
  | cons p t ih =>
    by_cases hp : p.1 = k
    · simp only [mapGet, if_pos hp, Option.some.injEq] at h
      subst h; subst hp
      exact List.mem_cons_self _ _
    · simp only [mapGet, if_neg hp] at h
      exact List.mem_cons_of_mem _ (ih h)

theorem mapGet_eq_some_of_mem [DecidableEq κ] {m : List (κ × α)} {k : κ} {v : α}
    (hnd : (m.map (·.1)).Nodup) (h : (k, v) ∈ m) : mapGet m k = some v := by
  induction m with
  | nil => simp at h
  | cons p t ih =>
    simp only [List.map_cons, List.nodup_cons] at hnd
    rcases List.mem_cons.mp h with h | h
    · subst h; simp [mapGet]
    · have hk : p.1 ≠ k := by
        rintro rfl
        exact hnd.1 (List.mem_map.mpr ⟨(p.1, v), h, rfl⟩)
      simp [mapGet, hk, ih hnd.2 h]

/-! ## Lemmas: role aggregation -/

theorem mem_getD_addRole (m : List (String × List Role)) (j i : String) (r' r : Role) :
    r ∈ (mapGet (addRole m j r') i).getD [] ↔
      r ∈ (mapGet m i).getD [] ∨ (j = i ∧ r' = r) := by
  unfold addRole
  by_cases h : i = j
  · subst h
    rw [mapGet_mapSet_self, Option.getD_some, mem_jsSetAdd]
    constructor
    · rintro (h | rfl)
      · exact Or.inl h
      · exact Or.inr ⟨rfl, rfl⟩
    · rintro (h | ⟨-, rfl⟩)
      · exact Or.inl h
      · exact Or.inr rfl
  · rw [mapGet_mapSet_ne _ _ h]
    have h' : ¬ (j = i) := fun hh => h hh.symm
    simp [h']

theorem mem_getD_rolesStep (m : List (String × List Role)) (lr : LinkRole) (i : String)
    (r : Role) :
    r ∈ (mapGet (rolesStep m lr) i).getD [] ↔
      r ∈ (mapGet m i).getD [] ∨
        (lr.link.source = i ∧ lr.sourceRole = r) ∨ (lr.link.target = i ∧ lr.targetRole = r) := by
  unfold rolesStep
  rw [mem_getD_addRole, mem_getD_addRole]
  tauto

theorem mem_getD_rolesFold (ls : List LinkRole) (m : List (String × List Role)) (i : String)
    (r : Role) :
    r ∈ (mapGet (ls.foldl rolesStep m) i).getD [] ↔
      r ∈ (mapGet m i).getD [] ∨
        ∃ lr ∈ ls, (lr.link.source = i ∧ lr.sourceRole = r) ∨
          (lr.link.target = i ∧ lr.targetRole = r) := by
  induction ls generalizing m with
  | nil => simp
  | cons lr t ih =>
    rw [List.foldl_cons, ih, mem_getD_rolesStep, List.exists_mem_cons_iff, or_assoc]

theorem mem_aggregatedRoles_iff (g : RawGraph) (i : String) (r : Role) :
    r ∈ aggregatedRoles g i ↔
      ∃ lr ∈ linkRoles g, (lr.link.source = i ∧ lr.sourceRole = r) ∨
        (lr.link.target = i ∧ lr.targetRole = r) := by
  unfold aggregatedRoles nodeRoles
  rw [mem_getD_rolesFold]
  simp [mapGet]

theorem sourceRoleOf_ne_victim (l : Link) : sourceRoleOf l ≠ Role.victim := by
  unfold sourceRoleOf; split <;> simp

theorem targetRoleOf_ne_sponsor (l : Link) : targetRoleOf l ≠ Role.sponsor := by
  unfold targetRoleOf; split <;> simp

theorem sponsor_mem_aggregatedRoles_iff (g : RawGraph) (i : String) :
    Role.sponsor ∈ aggregatedRoles g i ↔
      ∃ l ∈ canonLinks g, l.source = i ∧ sourceRoleOf l = Role.sponsor := by
  rw [mem_aggregatedRoles_iff]
  constructor
  · rintro ⟨lr, hlr, h⟩
    obtain ⟨l, hl, rfl⟩ := List.mem_map.mp hlr
    rcases h with ⟨hs, hr⟩ | ⟨ht, hr⟩
    · exact ⟨l, hl, hs, hr⟩
    · exact absurd hr (targetRoleOf_ne_sponsor l)
  · rintro ⟨l, hl, hs, hr⟩
    exact ⟨⟨l, sourceRoleOf l, targetRoleOf l⟩, List.mem_map.mpr ⟨l, hl, rfl⟩, Or.inl ⟨hs, hr⟩⟩

theorem victim_mem_aggregatedRoles_iff (g : RawGraph) (i : String) :
    Role.victim ∈ aggregatedRoles g i ↔
      ∃ l ∈ canonLinks g, l.target = i ∧ targetRoleOf l = Role.victim := by
  rw [mem_aggregatedRoles_iff]
  constructor
  · rintro ⟨lr, hlr, h⟩
    obtain ⟨l, hl, rfl⟩ := List.mem_map.mp hlr
    rcases h with ⟨hs, hr⟩ | ⟨ht, hr⟩
    · exact absurd hr (sourceRoleOf_ne_victim l)
    · exact ⟨l, hl, ht, hr⟩
  · rintro ⟨l, hl, ht, hr⟩
    exact ⟨⟨l, sourceRoleOf l, targetRoleOf l⟩, List.mem_map.mpr ⟨l, hl, rfl⟩, Or.inr ⟨ht, hr⟩⟩

theorem nodupKeys_nodeRoles (g : RawGraph) : ((nodeRoles g).map (·.1)).Nodup := by
  unfold nodeRoles
  have h : ∀ (ls : List LinkRole) (m : List (String × List Role)),
      (m.map (·.1)).Nodup → ((ls.foldl rolesStep m).map (·.1)).Nodup := by
    intro ls
    induction ls with
    | nil => intro m hm; simpa using hm
    | cons lr t ih =>
      intro m hm
      exact ih _ (nodupKeys_mapSet _ _ (nodupKeys_mapSet _ _ hm))
  exact h _ [] (by simp)

/-! ## Lemmas: the split set -/

theorem mem_foldl_splitStep (l : List (String × List Role)) (acc : List String) (i : String) :
    i ∈ l.foldl
        (fun acc p => if Role.sponsor ∈ p.2 ∧ Role.victim ∈ p.2 then jsSetAdd acc p.1 else acc)
        acc ↔
      i ∈ acc ∨ ∃ p ∈ l, p.1 = i ∧ Role.sponsor ∈ p.2 ∧ Role.victim ∈ p.2 := by
  induction l generalizing acc with
  | nil => simp
  | cons p t ih =>
    obtain ⟨a, rs⟩ := p
    simp only [List.foldl_cons, List.exists_mem_cons_iff]
    rw [ih]
    by_cases h : Role.sponsor ∈ rs ∧ Role.victim ∈ rs
    · rw [if_pos h, mem_jsSetAdd]
      constructor
      · rintro ((hi | rfl) | ht)
        · exact Or.inl hi
        · exact Or.inr (Or.inl ⟨rfl, h⟩)
        · exact Or.inr (Or.inr ht)
      · rintro (hi | ⟨rfl, -⟩ | ht)
        · exact Or.inl (Or.inl hi)
        · exact Or.inl (Or.inr rfl)
        · exact Or.inr ht
    · rw [if_neg h]
      constructor
      · rintro (hi | ht)
        · exact Or.inl hi
        · exact Or.inr (Or.inr ht)
      · rintro (hi | ⟨rfl, hh⟩ | ht)
        · exact Or.inl hi
        · exact absurd hh h
        · exact Or.inr ht

theorem mem_needsSplit_iff (g : RawGraph) (i : String) :
    i ∈ needsSplit g ↔
      Role.sponsor ∈ aggregatedRoles g i ∧ Role.victim ∈ aggregatedRoles g i := by
  unfold needsSplit
  rw [mem_foldl_splitStep]
  simp only [List.not_mem_nil, false_or]
  constructor
  · rintro ⟨p, hp, hi, hs, hv⟩
    obtain ⟨a, rs⟩ := p
    subst hi
    have hget : mapGet (nodeRoles g) a = some rs :=
      mapGet_eq_some_of_mem (nodupKeys_nodeRoles g) hp
    unfold aggregatedRoles
    rw [hget]
    exact ⟨hs, hv⟩
  · rintro ⟨hs, hv⟩
    unfold aggregatedRoles at hs hv
    cases hm : mapGet (nodeRoles g) i with
    | none => rw [hm] at hs; simp at hs
    | some rs =>
      rw [hm] at hs hv
      exact ⟨(i, rs), mem_of_mapGet_eq_some hm, rfl, hs, hv⟩

/-! ## Lemmas: node ids mentioned in links, healed node map -/

theorem mem_allNodeIds_iff (g : RawGraph) (x : String) :
    x ∈ allNodeIds g ↔ ∃ l ∈ canonLinks g, l.source = x ∨ l.target = x := by
  unfold allNodeIds
  have h : ∀ (ls : List Link) (s : List String),
      x ∈ ls.foldl (fun s l => jsSetAdd (jsSetAdd s l.source) l.target) s ↔
        x ∈ s ∨ ∃ l ∈ ls, l.source = x ∨ l.target = x := by
    intro ls
    induction ls with
    | nil => simp
    | cons l t ih =>
      intro s
      simp only [List.foldl_cons, List.exists_mem_cons_iff]
      rw [ih, mem_jsSetAdd, mem_jsSetAdd]
      constructor
      · rintro (((hx | rfl) | rfl) | ht)
        · exact Or.inl hx
        · exact Or.inr (Or.inl (Or.inl rfl))
        · exact Or.inr (Or.inl (Or.inr rfl))
        · exact Or.inr (Or.inr ht)
      · rintro (hx | (rfl | rfl) | ht)
        · exact Or.inl (Or.inl (Or.inl hx))
        · exact Or.inl (Or.inl (Or.inr rfl))
        · exact Or.inl (Or.inr rfl)
        · exact Or.inr ht
  rw [h]
  simp

theorem mem_keys_foldl_nodesStep (ns : List RawNode) (m : List (String × RawNode)) (x : String) :
    x ∈ (ns.foldl (fun m n => mapSet m n.id n) m).map (·.1) ↔
      x ∈ m.map (·.1) ∨ x ∈ ns.map (·.id) := by
  induction ns generalizing m with
  | nil => simp
  | cons n t ih =>
    simp only [List.foldl_cons, ih, mem_keys_mapSet, List.map_cons, List.mem_cons]
    tauto

theorem mem_keys_baseNodesById (g : RawGraph) (x : String) :
    x ∈ (baseNodesById g).map (·.1) ↔ x ∈ (g.nodes.getD []).map (·.id) := by
  unfold baseNodesById
  rw [mem_keys_foldl_nodesStep]
  simp

theorem mem_keys_healStep (m : List (String × RawNode)) (i x : String) :
    x ∈ (healStep m i).map (·.1) ↔ x ∈ m.map (·.1) ∨ x = i := by
  unfold healStep
  split
  · rename_i h
    constructor
    · exact Or.inl
    · rintro (hx | rfl)
      · exact hx
      · exact (mapHas_iff_mem_keys m x).mp h
  · rw [mem_keys_mapSet]

theorem mem_keys_heal_foldl (ids : List String) (m : List (String × RawNode)) (x : String) :
    x ∈ (ids.foldl healStep m).map (·.1) ↔ x ∈ m.map (·.1) ∨ x ∈ ids := by
  induction ids generalizing m with
  | nil => simp
  | cons i t ih =>
    simp only [List.foldl_cons, ih, mem_keys_healStep, List.mem_cons]
    tauto

theorem mem_keys_nodesById (g : RawGraph) (x : String) :
    x ∈ (nodesById g).map (·.1) ↔
      x ∈ (g.nodes.getD []).map (·.id) ∨ x ∈ allNodeIds g := by
  unfold nodesById
  rw [mem_keys_heal_foldl, mem_keys_baseNodesById]

theorem mem_foldl_nodesStep_elim (ns : List RawNode) (m : List (String × RawNode))
    {p : String × RawNode}
    (hp : p ∈ ns.foldl (fun m n => mapSet m n.id n) m) :
    p ∈ m ∨ ∃ n ∈ ns, p = (n.id, n) := by
  induction ns generalizing m with
  | nil => exact Or.inl (by simpa using hp)
  | cons n t ih =>
    rw [List.foldl_cons] at hp
    rcases ih _ hp with h | h
    · rcases mem_mapSet_elim h with h' | h'
      · exact Or.inl h'
      · exact Or.inr ⟨n, List.mem_cons_self _ _, h'⟩
    · obtain ⟨n', hn', h'⟩ := h
      exact Or.inr ⟨n', List.mem_cons_of_mem _ hn', h'⟩

theorem mem_heal_foldl_elim (ids : List String) (m : List (String × RawNode))
    {p : String × RawNode} (hp : p ∈ ids.foldl healStep m) :
    p ∈ m ∨ ∃ i ∈ ids, p = (i, ⟨i, some "actor", some 0⟩) := by
  induction ids generalizing m with
  | nil => exact Or.inl (by simpa using hp)
  | cons i t ih =>
    rw [List.foldl_cons] at hp
    rcases ih _ hp with h | h
    · unfold healStep at h
      split at h
      · exact Or.inl h
      · rcases mem_mapSet_elim h with h' | h'
        · exact Or.inl h'
        · exact Or.inr ⟨i, List.mem_cons_self _ _, h'⟩
    · obtain ⟨i', hi', h'⟩ := h
      exact Or.inr ⟨i', List.mem_cons_of_mem _ hi', h'⟩

theorem nodesById_entry (g : RawGraph) {p : String × RawNode} (hp : p ∈ nodesById g) :
    (p.2 ∈ g.nodes.getD [] ∧ p.2.id = p.1) ∨ p.2 = ⟨p.1, some "actor", some 0⟩ := by
  unfold nodesById at hp
  rcases mem_heal_foldl_elim _ _ hp with h | h
  · unfold baseNodesById at h
    rcases mem_foldl_nodesStep_elim _ _ h with h' | h'
    · simp at h'
    · obtain ⟨n, hn, rfl⟩ := h'
      exact Or.inl ⟨hn, rfl⟩
  · obtain ⟨i, hi, rfl⟩ := h
    exact Or.inr rfl

/-! ## Lemmas: rewritten node and link sets -/

theorem mem_ids_newNodes (g : RawGraph) (x : String) :
    x ∈ (newNodes g).map (·.id) ↔
      ∃ p ∈ nodesById g,
        (p.1 ∈ needsSplit g ∧ (x = p.1 ++ " [S]" ∨ x = p.1 ++ " [T]")) ∨
          (p.1 ∉ needsSplit g ∧ x = p.1) := by
  unfold newNodes
  constructor
  · intro hx
    obtain ⟨n, hn, rfl⟩ := List.mem_map.mp hx
    obtain ⟨p, hp, hnp⟩ := List.mem_flatMap.mp hn
    refine ⟨p, hp, ?_⟩
    by_cases hs : p.1 ∈ needsSplit g
    · rw [if_pos hs] at hnp
      simp only [List.mem_cons, List.mem_singleton, List.not_mem_nil, or_false] at hnp
      rcases hnp with rfl | rfl
      · exact Or.inl ⟨hs, Or.inl rfl⟩
      · exact Or.inl ⟨hs, Or.inr rfl⟩
    · rw [if_neg hs] at hnp
      simp only [List.mem_singleton] at hnp
      subst hnp
      exact Or.inr ⟨hs, rfl⟩
  · rintro ⟨p, hp, ⟨hs, hvar⟩ | ⟨hs, rfl⟩⟩
    · rcases hvar with rfl | rfl
      · exact List.mem_map.mpr ⟨⟨p.1 ++ " [S]", "sponsor", 0⟩,
          List.mem_flatMap.mpr ⟨p, hp, by rw [if_pos hs]; simp⟩, rfl⟩
      · exact List.mem_map.mpr ⟨⟨p.1 ++ " [T]", "victim", 0⟩,
          List.mem_flatMap.mpr ⟨p, hp, by rw [if_pos hs]; simp⟩, rfl⟩
    · exact List.mem_map.mpr ⟨⟨p.1, resolvedType g p.1 p.2, 0⟩,
        List.mem_flatMap.mpr ⟨p, hp, by rw [if_neg hs]; simp⟩, rfl⟩

theorem canonLink_endpoints_mem_keys (g : RawGraph) {l : Link} (hl : l ∈ canonLinks g) :
    l.source ∈ (nodesById g).map (·.1) ∧ l.target ∈ (nodesById g).map (·.1) := by
  constructor
  · rw [mem_keys_nodesById]
    exact Or.inr ((mem_allNodeIds_iff g l.source).mpr ⟨l, hl, Or.inl rfl⟩)
  · rw [mem_keys_nodesById]
    exact Or.inr ((mem_allNodeIds_iff g l.target).mpr ⟨l, hl, Or.inr rfl⟩)

theorem getNodeId_mem_newNodes (g : RawGraph) {i : String} (r : Role)
    (hi : i ∈ (nodesById g).map (·.1)) :
    getNodeId (needsSplit g) i r ∈ (newNodes g).map (·.id) := by
  obtain ⟨p, hp, rfl⟩ := List.mem_map.mp hi
  rw [mem_ids_newNodes]
  by_cases hs : p.1 ∈ needsSplit g
  · refine ⟨p, hp, Or.inl ⟨hs, ?_⟩⟩
    unfold getNodeId
    rw [if_neg (not_not_intro hs)]
    cases r
    · exact Or.inl rfl
    · exact Or.inl rfl
    · exact Or.inr rfl
  · refine ⟨p, hp, Or.inr ⟨hs, ?_⟩⟩
    unfold getNodeId
    rw [if_pos hs]

theorem newLinks_endpoints_valid (g : RawGraph) {l : Link} (hl : l ∈ newLinks g) :
    l.source ∈ (newNodes g).map (·.id) ∧ l.target ∈ (newNodes g).map (·.id) := by
  unfold newLinks at hl
  obtain ⟨lr, hlr, rfl⟩ := List.mem_map.mp hl
  unfold linkRoles at hlr
  obtain ⟨cl, hcl, rfl⟩ := List.mem_map.mp hlr
  obtain ⟨hks, hkt⟩ := canonLink_endpoints_mem_keys g hcl
  exact ⟨getNodeId_mem_newNodes g _ hks, getNodeId_mem_newNodes g _ hkt⟩

theorem invalidLinks_eq_nil (g : RawGraph) : invalidLinks g = [] := by
  unfold invalidLinks
  rw [List.filter_eq_nil_iff]
  intro l hl
  obtain ⟨hs, ht⟩ := newLinks_endpoints_valid g hl
  have hs' : l.source ∈ newNodeIds g := by
    unfold newNodeIds; rw [mem_jsSetOfList]; exact hs
  have ht' : l.target ∈ newNodeIds g := by
    unfold newNodeIds; rw [mem_jsSetOfList]; exact ht
  simp [hs', ht']

theorem normalizeGeo_eq (g : RawGraph) :
    normalizeGeo g =
      ⟨(newNodes g).map (fun n => { n with degree := mapGetD (degMap g) n.id 0 }),
        newLinks g⟩ := by
  unfold normalizeGeo
  rw [invalidLinks_eq_nil]
  simp

/-! ## Lemmas: degree recomputation -/

theorem endpointOcc_cons (x : String) (l : Link) (ls : List Link) :
    endpointOcc x (l :: ls) =
      ((if l.source = x then 1 else 0) + (if l.target = x then 1 else 0)) + endpointOcc x ls := by
  unfold endpointOcc
  rw [List.filter_cons, List.filter_cons]
  by_cases h1 : l.source = x <;> by_cases h2 : l.target = x <;> simp [h1, h2] <;> omega

theorem mapGetD_degStep (m : List (String × Nat)) (l : Link) (x : String) :
    mapGetD (degStep m l) x 0 =
      mapGetD m x 0 + ((if l.source = x then 1 else 0) + (if l.target = x then 1 else 0)) := by
  simp only [degStep]
  by_cases h1 : l.source = x
  · subst h1
    by_cases h2 : l.target = l.source
    · rw [h2, mapGetD_mapSet_self, mapGetD_mapSet_self, if_pos rfl]
    · have h2' : l.source ≠ l.target := fun hh => h2 hh.symm
      rw [mapGetD_mapSet_ne _ _ _ h2', mapGetD_mapSet_self, if_pos rfl, if_neg h2]
  · by_cases h2 : l.target = x
    · subst h2
      have h1' : l.target ≠ l.source := fun hh => h1 hh.symm
      rw [mapGetD_mapSet_self, mapGetD_mapSet_ne _ _ _ h1', if_neg h1, if_pos rfl]
    · have h1' : x ≠ l.source := fun hh => h1 hh.symm
      have h2' : x ≠ l.target := fun hh => h2 hh.symm
      rw [mapGetD_mapSet_ne _ _ _ h2', mapGetD_mapSet_ne _ _ _ h1', if_neg h1, if_neg h2]
      omega

theorem mapGetD_degFold (ls : List Link) (m : List (String × Nat)) (x : String) :
    mapGetD (ls.foldl degStep m) x 0 = mapGetD m x 0 + endpointOcc x ls := by
  induction ls generalizing m with
  | nil => simp [endpointOcc]
  | cons l t ih =>
    rw [List.foldl_cons, ih, mapGetD_degStep, endpointOcc_cons]
    omega

theorem mapGetD_degInit (g : RawGraph) (x : String) : mapGetD (degInit g) x 0 = 0 := by
  unfold degInit
  have h : ∀ (ns : List Node) (m : List (String × Nat)), mapGetD m x 0 = 0 →
      mapGetD (ns.foldl (fun m n => mapSet m n.id 0) m) x 0 = 0 := by
    intro ns
    induction ns with
    | nil => intro m hm; simpa using hm
    | cons n t ih =>
      intro m hm
      rw [List.foldl_cons]
      refine ih _ ?_
      show mapGetD (mapSet m n.id 0) x 0 = 0
      by_cases hc : x = n.id
      · subst hc; rw [mapGetD_mapSet_self]
      · rw [mapGetD_mapSet_ne _ _ _ hc]; exact hm
  exact h _ [] (by simp [mapGetD, mapGet])

theorem degree_final (g : RawGraph) {n : Node} (hn : n ∈ (normalizeGeo g).nodes) :
    n.degree = endpointOcc n.id (normalizeGeo g).links := by
  rw [normalizeGeo_eq] at hn ⊢
  obtain ⟨n0, hn0, rfl⟩ := List.mem_map.mp hn
  show mapGetD (degMap g) n0.id 0 = endpointOcc n0.id (newLinks g)
  unfold degMap
  rw [mapGetD_degFold, mapGetD_degInit]
  omega

theorem sum_map_add3 (l : List α) (f g h : α → Nat) :
    (l.map (fun a => (f a + g a) + h a)).sum = (l.map f).sum + (l.map g).sum + (l.map h).sum := by
  induction l with
  | nil => simp
  | cons a t ih => simp only [List.map_cons, List.sum_cons, ih]; omega

theorem sum_indicator_zero (ids : List String) (x : String) (hx : x ∉ ids) :
    (ids.map (fun i => if i = x then 1 else 0)).sum = 0 := by
  induction ids with
  | nil => simp
  | cons a t ih =>
    simp only [List.mem_cons, not_or] at hx
    have ha : ¬ a = x := fun hh => hx.1 hh.symm
    simp [ha, ih hx.2]

theorem sum_indicator_one (ids : List String) (x : String) (hnd : ids.Nodup) (hx : x ∈ ids) :
    (ids.map (fun i => if i = x then 1 else 0)).sum = 1 := by
  induction ids with
  | nil => simp at hx
  | cons a t ih =>
    rw [List.nodup_cons] at hnd
    rcases List.mem_cons.mp hx with rfl | hx'
    · simp [sum_indicator_zero t x hnd.1]
    · have ha : ¬ a = x := by rintro rfl; exact hnd.1 hx'
      simp [ha, ih hnd.2 hx']

theorem map_comp_id (nodes : List Node) (F : String → Nat) :
    nodes.map (fun n => F n.id) = (nodes.map (·.id)).map F := by
  rw [List.map_map]; rfl

theorem sum_endpointOcc (nodes : List Node) (ls : List Link)
    (hnd : (nodes.map (·.id)).Nodup)
    (hv : ∀ l ∈ ls, l.source ∈ nodes.map (·.id) ∧ l.target ∈ nodes.map (·.id)) :
    (nodes.map (fun n => endpointOcc n.id ls)).sum = 2 * ls.length := by
  induction ls with
  | nil => simp [endpointOcc]
  | cons l t ih =>
    have hl := hv l (List.mem_cons_self _ _)
    have hv' : ∀ l' ∈ t, l'.source ∈ nodes.map (·.id) ∧ l'.target ∈ nodes.map (·.id) :=
      fun l' hl' => hv l' (List.mem_cons_of_mem _ hl')
    have hmap : nodes.map (fun n => endpointOcc n.id (l :: t)) =
        nodes.map (fun n =>
          ((if n.id = l.source then 1 else 0) + (if n.id = l.target then 1 else 0)) +
            endpointOcc n.id t) := by
      apply List.map_congr_left
      intro n _
      rw [endpointOcc_cons]
      have e1 : (if l.source = n.id then 1 else 0) = (if n.id = l.source then (1 : Nat) else 0) := by
        by_cases hc : l.source = n.id
        · rw [if_pos hc, if_pos hc.symm]
        · have hc' : ¬ n.id = l.source := fun hh => hc hh.symm
          rw [if_neg hc, if_neg hc']
      have e2 : (if l.target = n.id then 1 else 0) = (if n.id = l.target then (1 : Nat) else 0) := by
        by_cases hc : l.target = n.id
        · rw [if_pos hc, if_pos hc.symm]
        · have hc' : ¬ n.id = l.target := fun hh => hc hh.symm
          rw [if_neg hc, if_neg hc']
      rw [e1, e2]
    rw [hmap, sum_map_add3, map_comp_id nodes (fun i => if i = l.source then 1 else 0),
      map_comp_id nodes (fun i => if i = l.target then 1 else 0),
      sum_indicator_one _ _ hnd hl.1, sum_indicator_one _ _ hnd hl.2, ih hv']
    simp only [List.length_cons]
    omega

theorem mapGetD_degMap (g : RawGraph) (x : String) :
    mapGetD (degMap g) x 0 = endpointOcc x (newLinks g) := by
  unfold degMap
  rw [mapGetD_degFold, mapGetD_degInit]
  omega

theorem ids_map_setDeg (g : RawGraph) :
    ((newNodes g).map (fun n => { n with degree := mapGetD (degMap g) n.id 0 })).map (·.id) =
      (newNodes g).map (·.id) := by
  rw [List.map_map]; rfl

theorem nodes_normalizeGeo (g : RawGraph) :
    (normalizeGeo g).nodes =
      (newNodes g).map (fun n => { n with degree := mapGetD (degMap g) n.id 0 }) := by
  rw [normalizeGeo_eq]

theorem links_normalizeGeo (g : RawGraph) : (normalizeGeo g).links = newLinks g := by
  rw [normalizeGeo_eq]

theorem ids_normalizeGeo (g : RawGraph) :
    (normalizeGeo g).nodes.map (·.id) = (newNodes g).map (·.id) := by
  rw [nodes_normalizeGeo]
  exact ids_map_setDeg g

/-! ## Lemmas: final node types -/

theorem resolvedType_spec (g : RawGraph) (i : String) (v : RawNode) :
    resolvedType g i v ∈ (["actor", "sponsor", "victim"] : List String) ∨
      (∃ t, v.type = some t ∧ resolvedType g i v = t ∧
        Role.sponsor ∉ aggregatedRoles g i ∧ Role.victim ∉ aggregatedRoles g i) := by
  have hagg : aggregatedRoles g i = (mapGet (nodeRoles g) i).getD [] := rfl
  unfold resolvedType
  cases hm : mapGet (nodeRoles g) i with
  | none =>
    have hs : Role.sponsor ∉ aggregatedRoles g i := by rw [hagg, hm]; simp
    have hv : Role.victim ∉ aggregatedRoles g i := by rw [hagg, hm]; simp
    cases ht : v.type with
    | none => left; simp
    | some t =>
      by_cases hte : t = ""
      · left; simp [hte]
      · right; exact ⟨t, rfl, by simp [hte], hs, hv⟩
  | some roles =>
    have hroles : aggregatedRoles g i = roles := by rw [hagg, hm]; rfl
    by_cases hs : Role.sponsor ∈ roles
    · left; simp [hs]
    · by_cases hv : Role.victim ∈ roles
      · left; simp [hs, hv]
      · have hs' : Role.sponsor ∉ aggregatedRoles g i := by rw [hroles]; exact hs
        have hv' : Role.victim ∉ aggregatedRoles g i := by rw [hroles]; exact hv
        cases ht : v.type with
        | none => left; simp [hs, hv]
        | some t =>
          by_cases hte : t = ""
          · left; simp [hs, hv, hte]
          · right; exact ⟨t, rfl, by simp [hs, hv, hte], hs', hv'⟩

theorem mem_newNodes_elim (g : RawGraph) {n : Node} (hn : n ∈ newNodes g) :
    n.type = "sponsor" ∨ n.type = "victim" ∨
      ∃ p ∈ nodesById g, p.1 = n.id ∧ n.type = resolvedType g p.1 p.2 := by
  unfold newNodes at hn
  obtain ⟨p, hp, hnp⟩ := List.mem_flatMap.mp hn
  by_cases hs : p.1 ∈ needsSplit g
  · rw [if_pos hs] at hnp
    simp only [List.mem_cons, List.mem_singleton, List.not_mem_nil, or_false] at hnp
    rcases hnp with rfl | rfl
    · exact Or.inl rfl
    · exact Or.inr (Or.inl rfl)
  · rw [if_neg hs] at hnp
    rw [List.mem_singleton] at hnp
    subst hnp
    exact Or.inr (Or.inr ⟨p, hp, rfl, rfl⟩)

/-! ## Claim C1 -/

/-- Claim C1, counterexample: the claim says a node is split only when its
aggregated role set is exactly {sponsor, victim}, but in `exC1` node `X`
aggregates all three roles (sponsor, victim and actor) and is split
anyway. -/
theorem spec_C1_counterexample :
    "X" ∈ needsSplit exC1 ∧ Role.actor ∈ aggregatedRoles exC1 "X" ∧
      Role.sponsor ∈ aggregatedRoles exC1 "X" ∧ Role.victim ∈ aggregatedRoles exC1 "X" := by
  decide

/-- Claim C1 (amended): a node is split if and only if its aggregated role
set contains both the sponsor role and the victim role — that is, it is the
source of some edge whose type mentions `sponsor_to` and the target of some
edge whose type mentions `to_victim`; the set need not be exactly
{sponsor, victim}. -/
theorem spec_C1_amended : ∀ (g : RawGraph) (i : String),
    (i ∈ needsSplit g ↔
      Role.sponsor ∈ aggregatedRoles g i ∧ Role.victim ∈ aggregatedRoles g i) ∧
    (Role.sponsor ∈ aggregatedRoles g i ↔
      ∃ l ∈ canonLinks g, l.source = i ∧ sourceRoleOf l = Role.sponsor) ∧
    (Role.victim ∈ aggregatedRoles g i ↔
      ∃ l ∈ canonLinks g, l.target = i ∧ targetRoleOf l = Role.victim) :=
  fun g i =>
    ⟨mem_needsSplit_iff g i, sponsor_mem_aggregatedRoles_iff g i,
      victim_mem_aggregatedRoles_iff g i⟩

/-- Claim C1, witness: the amended characterization instantiated at the
split node `X` of `exC1`. -/
theorem spec_C1_witness :
    ("X" ∈ needsSplit exC1 ↔
      Role.sponsor ∈ aggregatedRoles exC1 "X" ∧ Role.victim ∈ aggregatedRoles exC1 "X") ∧
    (Role.sponsor ∈ aggregatedRoles exC1 "X" ↔
      ∃ l ∈ canonLinks exC1, l.source = "X" ∧ sourceRoleOf l = Role.sponsor) ∧
    (Role.victim ∈ aggregatedRoles exC1 "X" ↔
      ∃ l ∈ canonLinks exC1, l.target = "X" ∧ targetRoleOf l = Role.victim) :=
  spec_C1_amended exC1 "X"

/-! ## Claim C2 -/

/-- Claim C2: referential integrity — every edge of the normalized output
has both endpoints among the output node ids (and normalization is a total
function, so it always terminates with such a graph). -/
theorem spec_C2 : ∀ (g : RawGraph) (l : Link), l ∈ (normalizeGeo g).links →
    l.source ∈ (normalizeGeo g).nodes.map (·.id) ∧
      l.target ∈ (normalizeGeo g).nodes.map (·.id) := by
  intro g l hl
  rw [normalizeGeo_eq] at hl ⊢
  obtain ⟨hs, ht⟩ := newLinks_endpoints_valid g hl
  show l.source ∈ _ ∧ l.target ∈ _
  rw [ids_map_setDeg]
  exact ⟨hs, ht⟩

/-- Claim C2, witness at a concrete input. -/
theorem spec_C2_witness :
    (⟨"X", "Y", 1, ""⟩ : Link) ∈ (normalizeGeo exC2).links ∧
      ((⟨"X", "Y", 1, ""⟩ : Link).source ∈ (normalizeGeo exC2).nodes.map (·.id) ∧
        (⟨"X", "Y", 1, ""⟩ : Link).target ∈ (normalizeGeo exC2).nodes.map (·.id)) :=
  ⟨by decide, spec_C2 exC2 ⟨"X", "Y", 1, ""⟩ (by decide)⟩

/-! ## Claim C3 -/

/-- Claim C3, counterexample: in `exC3` the raw node id `X [S]` collides
with the sponsor variant of the split node `X`, two output node records
share that id, and the sum of degrees is 3 while the final edge set has one
edge — the 2×|E| identity fails. -/
theorem spec_C3_counterexample :
    ¬ (((normalizeGeo exC3).nodes.map (·.degree)).sum =
        2 * (normalizeGeo exC3).links.length) := by
  decide

/-- Claim C3 (amended): each output node's degree equals the number of
endpoint occurrences of its id in the final edge set (so isolated nodes get
degree 0), and — provided the output node ids are pairwise distinct, which
only fails when a raw node id collides with a split-variant id — the sum of
all degrees equals 2× the number of final edges. -/
theorem spec_C3_amended : ∀ (g : RawGraph),
    (∀ n ∈ (normalizeGeo g).nodes, n.degree = endpointOcc n.id (normalizeGeo g).links) ∧
    (∀ n ∈ (normalizeGeo g).nodes,
      (∀ l ∈ (normalizeGeo g).links, l.source ≠ n.id ∧ l.target ≠ n.id) → n.degree = 0) ∧
    (((normalizeGeo g).nodes.map (·.id)).Nodup →
      ((normalizeGeo g).nodes.map (·.degree)).sum = 2 * (normalizeGeo g).links.length) := by
  intro g
  refine ⟨fun n hn => degree_final g hn, ?_, ?_⟩
  · intro n hn hno
    rw [degree_final g hn]
    unfold endpointOcc
    have e1 : (normalizeGeo g).links.filter (fun l => decide (l.source = n.id)) = [] := by
      rw [List.filter_eq_nil_iff]
      intro l hl
      simpa using (hno l hl).1
    have e2 : (normalizeGeo g).links.filter (fun l => decide (l.target = n.id)) = [] := by
      rw [List.filter_eq_nil_iff]
      intro l hl
      simpa using (hno l hl).2
    rw [e1, e2]
    rfl
  · intro hnd
    rw [ids_normalizeGeo] at hnd
    rw [links_normalizeGeo, nodes_normalizeGeo, List.map_map]
    have hm : ((newNodes g).map
        ((fun x => x.degree) ∘ fun n => { n with degree := mapGetD (degMap g) n.id 0 })) =
        (newNodes g).map (fun n => endpointOcc n.id (newLinks g)) := by
      apply List.map_congr_left
      intro n _
      show mapGetD (degMap g) n.id 0 = endpointOcc n.id (newLinks g)
      rw [mapGetD_degMap]
    rw [hm]
    exact sum_endpointOcc (newNodes g) (newLinks g) hnd
      (fun l hl => newLinks_endpoints_valid g hl)

/-- Claim C3, witness at a concrete input with distinct output ids. -/
theorem spec_C3_witness :
    (((normalizeGeo exC2).nodes.map (·.id)).Nodup) ∧
      ((normalizeGeo exC2).nodes.map (·.degree)).sum =
        2 * (normalizeGeo exC2).links.length :=
  ⟨by decide, (spec_C3_amended exC2).2.2 (by decide)⟩

/-! ## Claim C4 -/

/-- Claim C4, counterexample: a document with a nodes collection but no
links collection at all is accepted by ingestion, contradicting the claim
that a missing links collection is fatal. -/
theorem spec_C4_counterexample :
    exC4.links = none ∧ (ingestGeo (some exC4)).isOk = true := by
  constructor
  · rfl
  · decide

/-- Claim C4 (amended): ingestion fails fast exactly when the document is
absent or lacks BOTH the nodes and the links collection; a document with at
least one of the two collections present is never rejected. -/
theorem spec_C4_amended : ∀ (g : RawGraph),
    ((∃ e, ingestGeo (some g) = .error e) ↔ (g.nodes = none ∧ g.links = none)) ∧
    (∃ e, ingestGeo none = .error e) := by
  intro g
  constructor
  · show (∃ e, (if g.nodes.isNone && g.links.isNone
        then (Except.error "Invalid network data structure" : Except String Graph)
        else Except.ok (normalizeGeo g)) = Except.error e) ↔
      (g.nodes = none ∧ g.links = none)
    by_cases h : (g.nodes.isNone && g.links.isNone) = true
    · rw [if_pos h]
      simp only [Bool.and_eq_true, Option.isNone_iff_eq_none] at h
      exact ⟨fun _ => h, fun _ => ⟨_, rfl⟩⟩
    · rw [if_neg h]
      constructor
      · rintro ⟨e, he⟩
        exact absurd he (by simp)
      · rintro ⟨hn, hl⟩
        exact absurd (by simp [hn, hl] : (g.nodes.isNone && g.links.isNone) = true) h
  · exact ⟨_, rfl⟩

/-- Claim C4, witness: the amended statement instantiated at the document
with nodes present and links absent. -/
theorem spec_C4_witness :
    ((∃ e, ingestGeo (some exC4) = .error e) ↔ (exC4.nodes = none ∧ exC4.links = none)) ∧
      (∃ e, ingestGeo none = .error e) :=
  spec_C4_amended exC4

/-! ## Claim C5 -/

/-- Claim C5, counterexample: the raw node `N` of `exC5` has type `banana`
and no incident edges; its normalized type is still `banana`, not one of
actor/sponsor/victim. -/
theorem spec_C5_counterexample :
    (normalizeGeo exC5).nodes.map (·.type) = ["banana"] ∧
      ¬ ("banana" ∈ (["actor", "sponsor", "victim"] : List String)) := by
  decide

/-- Claim C5 (amended): every normalized node's type is actor, sponsor or
victim, except that a node whose raw type is some other string and whose
aggregated roles include neither sponsor nor victim keeps its raw type
unchanged. -/
theorem spec_C5_amended : ∀ (g : RawGraph) (n : Node), n ∈ (normalizeGeo g).nodes →
    n.type ∈ (["actor", "sponsor", "victim"] : List String) ∨
      ∃ rn ∈ g.nodes.getD [], rn.id = n.id ∧ rn.type = some n.type ∧
        Role.sponsor ∉ aggregatedRoles g n.id ∧ Role.victim ∉ aggregatedRoles g n.id := by
  intro g n hn
  rw [nodes_normalizeGeo] at hn
  obtain ⟨n0, hn0, rfl⟩ := List.mem_map.mp hn
  show n0.type ∈ (["actor", "sponsor", "victim"] : List String) ∨
    ∃ rn ∈ g.nodes.getD [], rn.id = n0.id ∧ rn.type = some n0.type ∧
      Role.sponsor ∉ aggregatedRoles g n0.id ∧ Role.victim ∉ aggregatedRoles g n0.id
  rcases mem_newNodes_elim g hn0 with ht | ht | ⟨p, hp, hpi, ht⟩
  · left; rw [ht]; simp
  · left; rw [ht]; simp
  · rcases resolvedType_spec g p.1 p.2 with hres | ⟨t, hvt, hres, hs, hv⟩
    · left; rw [ht]; exact hres
    · rcases nodesById_entry g hp with ⟨hraw, hid⟩ | hdef
      · right
        refine ⟨p.2, hraw, ?_, ?_, ?_, ?_⟩
        · rw [hid, hpi]
        · rw [hvt, ht, hres]
        · rw [← hpi]; exact hs
        · rw [← hpi]; exact hv
      · left
        have : p.2.type = some "actor" := by rw [hdef]
        rw [hvt] at this
        have ht' : t = "actor" := Option.some.inj this
        rw [ht, hres, ht']
        simp

/-- Claim C5, witness: the amended statement applied at the `banana` node. -/
theorem spec_C5_witness :
    (⟨"N", "banana", 0⟩ : Node) ∈ (normalizeGeo exC5).nodes ∧
      ((⟨"N", "banana", 0⟩ : Node).type ∈ (["actor", "sponsor", "victim"] : List String) ∨
        ∃ rn ∈ exC5.nodes.getD [], rn.id = "N" ∧ rn.type = some "banana" ∧
          Role.sponsor ∉ aggregatedRoles exC5 "N" ∧ Role.victim ∉ aggregatedRoles exC5 "N") :=
  ⟨by decide, spec_C5_amended exC5 ⟨"N", "banana", 0⟩ (by decide)⟩

/-! ## Claim C10 -/

/-- Claim C10: after healing and split-aware rewrite every rewritten edge
endpoint is already a member of the new node id set, so the validator's
invalid-link filter removes nothing and the edge-dropping branch is
unreachable: the final links are exactly the rewritten links. -/
theorem spec_C10 : ∀ (g : RawGraph),
    (∀ l ∈ newLinks g,
      l.source ∈ (newNodes g).map (·.id) ∧ l.target ∈ (newNodes g).map (·.id)) ∧
    invalidLinks g = [] ∧ (normalizeGeo g).links = newLinks g :=
  fun g =>
    ⟨fun _ hl => newLinks_endpoints_valid g hl, invalidLinks_eq_nil g,
      by rw [normalizeGeo_eq]⟩

/-- Claim C10, witness at a concrete input containing a split node. -/
theorem spec_C10_witness :
    invalidLinks exC10 = [] ∧ (normalizeGeo exC10).links = newLinks exC10 :=
  ⟨(spec_C10 exC10).2.1, (spec_C10 exC10).2.2⟩

/-! ## Claim C6 -/

/-- Claim C6: edge rewrite routing is a deterministic function of the
per-edge role classification — a non-split endpoint keeps its id, a split
endpoint routes to the `[S]` variant for the sponsor role, to the `[T]`
variant for the victim role, and to the `[S]` variant (by policy) for the
ambiguous actor role; the rewritten link list is exactly the routed one. -/
theorem spec_C6 : ∀ (ns : List String) (i : String) (r : Role),
    (i ∉ ns → getNodeId ns i r = i) ∧
    (i ∈ ns → r = Role.sponsor → getNodeId ns i r = i ++ " [S]") ∧
    (i ∈ ns → r = Role.victim → getNodeId ns i r = i ++ " [T]") ∧
    (i ∈ ns → r = Role.actor → getNodeId ns i r = i ++ " [S]") ∧
    ∀ (g : RawGraph), newLinks g = (linkRoles g).map (fun lr =>
      ⟨getNodeId (needsSplit g) lr.link.source lr.sourceRole,
        getNodeId (needsSplit g) lr.link.target lr.targetRole,
        lr.link.weight, lr.link.type⟩) := by
  intro ns i r
  refine ⟨?_, ?_, ?_, ?_, fun g => rfl⟩
  · intro h; unfold getNodeId; rw [if_pos h]
  · intro h hr; subst hr; unfold getNodeId; rw [if_neg (not_not_intro h)]
  · intro h hr; subst hr; unfold getNodeId; rw [if_neg (not_not_intro h)]
  · intro h hr; subst hr; unfold getNodeId; rw [if_neg (not_not_intro h)]

/-- Claim C6, witness: routing at a concrete split id and a non-split id. -/
theorem spec_C6_witness :
    getNodeId ["X"] "X" Role.sponsor = "X [S]" ∧
      getNodeId ["X"] "X" Role.victim = "X [T]" ∧
      getNodeId ["X"] "X" Role.actor = "X [S]" ∧
      getNodeId ["X"] "Y" Role.actor = "Y" :=
  ⟨(spec_C6 ["X"] "X" Role.sponsor).2.1 (by decide) rfl,
    (spec_C6 ["X"] "X" Role.victim).2.2.1 (by decide) rfl,
    (spec_C6 ["X"] "X" Role.actor).2.2.2.1 (by decide) rfl,
    (spec_C6 ["X"] "Y" Role.actor).1 (by decide)⟩

/-! ## Lemmas: normalizing an already-normalized graph (claim C9) -/

theorem canonLinks_toRaw (g : Graph) : canonLinks (toRaw g) = g.links := by
  show (g.links.map rawLinkOf).map _ = g.links
  rw [List.map_map]
  exact List.map_id' g.links

theorem mapSet_append_of_not_has [DecidableEq κ] (m : List (κ × α)) (k : κ) (v : α)
    (h : mapHas m k = false) : mapSet m k v = m ++ [(k, v)] := by
  induction m with
  | nil => simp [mapSet]
  | cons p t ih =>
    simp only [mapHas, Bool.or_eq_false_iff, decide_eq_false_iff_not] at h
    simp [mapSet, h.1, ih h.2]

theorem mapHas_append [DecidableEq κ] (m1 m2 : List (κ × α)) (k : κ) :
    mapHas (m1 ++ m2) k = (mapHas m1 k || mapHas m2 k) := by
  induction m1 with
  | nil => simp [mapHas]
  | cons p t ih => simp [mapHas, ih, Bool.or_assoc]

theorem foldl_mapSet_fresh (ns : List RawNode) :
    ∀ (m : List (String × RawNode)), (∀ n ∈ ns, mapHas m n.id = false) →
      (ns.map (·.id)).Nodup →
      ns.foldl (fun m n => mapSet m n.id n) m = m ++ ns.map (fun n => (n.id, n)) := by
  induction ns with
  | nil => intro m _ _; simp
  | cons n t ih =>
    intro m hfresh hnd
    rw [List.foldl_cons,
      mapSet_append_of_not_has m n.id n (hfresh n (List.mem_cons_self _ _)),
      ih (m ++ [(n.id, n)]) ?_ ?_]
    · simp
    · intro n' hn'
      rw [mapHas_append, Bool.or_eq_false_iff]
      refine ⟨hfresh n' (List.mem_cons_of_mem _ hn'), ?_⟩
      rw [List.map_cons, List.nodup_cons] at hnd
      have hne : n.id ≠ n'.id := by
        intro hh
        exact hnd.1 (hh ▸ List.mem_map.mpr ⟨n', hn', rfl⟩)
      simp [mapHas, hne]
    · rw [List.map_cons, List.nodup_cons] at hnd
      exact hnd.2

theorem baseNodesById_toRaw (g : Graph) (hnd : (g.nodes.map (·.id)).Nodup) :
    baseNodesById (toRaw g) = g.nodes.map (fun n => (n.id, rawOf n)) := by
  show (g.nodes.map rawOf).foldl (fun m n => mapSet m n.id n) [] =
    g.nodes.map (fun n => (n.id, rawOf n))
  rw [foldl_mapSet_fresh (g.nodes.map rawOf) [] (fun n _ => rfl) ?_]
  · rw [List.nil_append, List.map_map]
    rfl
  · rw [List.map_map]
    exact hnd

theorem heal_noop (ids : List String) :
    ∀ (m : List (String × RawNode)), (∀ i ∈ ids, mapHas m i = true) →
      ids.foldl healStep m = m := by
  induction ids with
  | nil => intro m _; rfl
  | cons i t ih =>
    intro m h
    rw [List.foldl_cons]
    have hstep : healStep m i = m := by
      unfold healStep
      rw [if_pos (h i (List.mem_cons_self _ _))]
    rw [hstep]
    exact ih m (fun j hj => h j (List.mem_cons_of_mem _ hj))

theorem nodesById_toRaw (g : Graph) (hnd : (g.nodes.map (·.id)).Nodup)
    (hRef : ∀ l ∈ g.links, l.source ∈ g.nodes.map (·.id) ∧ l.target ∈ g.nodes.map (·.id)) :
    nodesById (toRaw g) = g.nodes.map (fun n => (n.id, rawOf n)) := by
  unfold nodesById
  rw [baseNodesById_toRaw g hnd]
  apply heal_noop
  intro i hi
  rw [mapHas_iff_mem_keys, List.map_map]
  show i ∈ g.nodes.map fun n => n.id
  obtain ⟨l, hl, hor⟩ := (mem_allNodeIds_iff _ i).mp hi
  rw [canonLinks_toRaw] at hl
  rcases hor with h | h
  · exact h ▸ (hRef l hl).1
  · exact h ▸ (hRef l hl).2

theorem needsSplit_toRaw_nil (g : Graph)
    (hNC : ∀ i ∈ allNodeIds (toRaw g),
      ¬(Role.sponsor ∈ aggregatedRoles (toRaw g) i ∧
        Role.victim ∈ aggregatedRoles (toRaw g) i)) :
    needsSplit (toRaw g) = [] := by
  rw [List.eq_nil_iff_forall_not_mem]
  intro i hi
  rw [mem_needsSplit_iff] at hi
  have hmem : i ∈ allNodeIds (toRaw g) := by
    obtain ⟨l, hl, hsrc, -⟩ := (sponsor_mem_aggregatedRoles_iff _ i).mp hi.1
    exact (mem_allNodeIds_iff _ i).mpr ⟨l, hl, Or.inl hsrc⟩
  exact hNC i hmem hi

theorem flatMap_eq_map (l : List α) (f : α → List β) (h : α → β)
    (hf : ∀ a ∈ l, f a = [h a]) : l.flatMap f = l.map h := by
  induction l with
  | nil => rfl
  | cons a t ih =>
    rw [List.flatMap_cons, hf a (List.mem_cons_self _ _),
      ih (fun a ha => hf a (List.mem_cons_of_mem _ ha))]
    rfl

theorem resolvedType_toRaw (g : Graph) (n : Node)
    (hTyS : Role.sponsor ∈ aggregatedRoles (toRaw g) n.id → n.type = "sponsor")
    (hTyV : Role.sponsor ∉ aggregatedRoles (toRaw g) n.id →
      Role.victim ∈ aggregatedRoles (toRaw g) n.id → n.type = "victim")
    (hne : n.type ≠ "") :
    resolvedType (toRaw g) n.id (rawOf n) = n.type := by
  unfold resolvedType rawOf
  cases hm : mapGet (nodeRoles (toRaw g)) n.id with
  | none => simp [hne]
  | some roles =>
    have hroles : aggregatedRoles (toRaw g) n.id = roles := by
      unfold aggregatedRoles; rw [hm]; rfl
    by_cases hs : Role.sponsor ∈ roles
    · simp only [if_pos hs]
      exact (hTyS (hroles ▸ hs)).symm
    · by_cases hv : Role.victim ∈ roles
      · simp only [if_neg hs, if_pos hv]
        exact (hTyV (hroles ▸ hs) (hroles ▸ hv)).symm
      · simp [hs, hv, hne]

theorem newNodes_toRaw (g : Graph) (hnd : (g.nodes.map (·.id)).Nodup)
    (hRef : ∀ l ∈ g.links, l.source ∈ g.nodes.map (·.id) ∧ l.target ∈ g.nodes.map (·.id))
    (hsplit : needsSplit (toRaw g) = [])
    (hTy : ∀ n ∈ g.nodes, n.type ≠ "" ∧
      (Role.sponsor ∈ aggregatedRoles (toRaw g) n.id → n.type = "sponsor") ∧
      (Role.sponsor ∉ aggregatedRoles (toRaw g) n.id →
        Role.victim ∈ aggregatedRoles (toRaw g) n.id → n.type = "victim")) :
    newNodes (toRaw g) = g.nodes.map (fun n => ⟨n.id, n.type, 0⟩) := by
  unfold newNodes
  rw [nodesById_toRaw g hnd hRef, hsplit]
  rw [flatMap_eq_map _ _ (fun p => ⟨p.1, resolvedType (toRaw g) p.1 p.2, 0⟩)
    (fun p _ => by rw [if_neg (List.not_mem_nil p.1)])]
  rw [List.map_map]
  apply List.map_congr_left
  intro n hn
  show (⟨n.id, resolvedType (toRaw g) n.id (rawOf n), 0⟩ : Node) = ⟨n.id, n.type, 0⟩
  rw [resolvedType_toRaw g n (hTy n hn).2.1 (hTy n hn).2.2 (hTy n hn).1]

theorem newLinks_toRaw (g : Graph) (hsplit : needsSplit (toRaw g) = []) :
    newLinks (toRaw g) = g.links := by
  unfold newLinks linkRoles
  rw [canonLinks_toRaw, hsplit, List.map_map]
  refine Eq.trans (List.map_congr_left ?_) (List.map_id' g.links)
  intro l _
  show (⟨getNodeId [] l.source (sourceRoleOf l), getNodeId [] l.target (targetRoleOf l),
    l.weight, l.type⟩ : Link) = l
  unfold getNodeId
  rw [if_pos (List.not_mem_nil l.source), if_pos (List.not_mem_nil l.target)]

/-! ## Claim C9 -/

/-- Claim C9, counterexample: `exC9` has no node with conflicting roles
(node `A` is only ever a sponsor, `B` only an actor), yet normalizing it
changes the node set beyond degree recomputation — `A`'s type flips from
actor to sponsor and the dangling endpoint `B` is healed in as a new
node. -/
theorem spec_C9_counterexample :
    (∀ i ∈ allNodeIds (toRaw exC9),
      ¬(Role.sponsor ∈ aggregatedRoles (toRaw exC9) i ∧
        Role.victim ∈ aggregatedRoles (toRaw exC9) i)) ∧
      (normalizeGeo (toRaw exC9)).nodes.map (fun n => (n.id, n.type)) ≠
        exC9.nodes.map (fun n => (n.id, n.type)) := by
  decide

/-- Claim C9 (amended): normalization is idempotent on graphs that are
actually normalized — no node aggregates both the sponsor and the victim
role, every edge endpoint already names a node, every node's type agrees
with the sponsor > victim role precedence (and is non-empty), and node ids
are unique.  On such graphs the node set is reproduced up to degree
recomputation and the edge set is reproduced exactly.  The role-set
condition alone (as the claim states it) is not sufficient. -/
theorem spec_C9_amended : ∀ (g : Graph),
    (∀ i ∈ allNodeIds (toRaw g),
      ¬(Role.sponsor ∈ aggregatedRoles (toRaw g) i ∧
        Role.victim ∈ aggregatedRoles (toRaw g) i)) →
    (∀ l ∈ g.links, l.source ∈ g.nodes.map (·.id) ∧ l.target ∈ g.nodes.map (·.id)) →
    (∀ n ∈ g.nodes, n.type ≠ "" ∧
      (Role.sponsor ∈ aggregatedRoles (toRaw g) n.id → n.type = "sponsor") ∧
      (Role.sponsor ∉ aggregatedRoles (toRaw g) n.id →
        Role.victim ∈ aggregatedRoles (toRaw g) n.id → n.type = "victim")) →
    (g.nodes.map (·.id)).Nodup →
    (normalizeGeo (toRaw g)).nodes.map (fun n => (n.id, n.type)) =
        g.nodes.map (fun n => (n.id, n.type)) ∧
      (normalizeGeo (toRaw g)).links = g.links := by
  intro g hNC hRef hTy hnd
  have hsplit := needsSplit_toRaw_nil g hNC
  refine ⟨?_, by rw [links_normalizeGeo, newLinks_toRaw g hsplit]⟩
  rw [nodes_normalizeGeo, List.map_map, newNodes_toRaw g hnd hRef hsplit hTy, List.map_map]
  rfl

/-- Claim C9, witness: a fully normalized two-node graph is reproduced. -/
theorem spec_C9_witness :
    (normalizeGeo (toRaw exC9w)).nodes.map (fun n => (n.id, n.type)) =
        exC9w.nodes.map (fun n => (n.id, n.type)) ∧
      (normalizeGeo (toRaw exC9w)).links = exC9w.links :=
  spec_C9_amended exC9w (by decide) (by decide) (by decide) (by decide)

/-! ## Lemmas: the stable descending sort -/

theorem mem_insertByKeyDesc (key : α → Int) (x : α) (l : List α) (y : α) :
    y ∈ insertByKeyDesc key x l ↔ y = x ∨ y ∈ l := by
  induction l with
  | nil => simp [insertByKeyDesc]
  | cons a t ih =>
    unfold insertByKeyDesc
    split
    · simp [List.mem_cons]
    · simp only [List.mem_cons, ih]
      tauto

theorem length_insertByKeyDesc (key : α → Int) (x : α) (l : List α) :
    (insertByKeyDesc key x l).length = l.length + 1 := by
  induction l with
  | nil => rfl
  | cons a t ih =>
    unfold insertByKeyDesc
    split
    · simp
    · simp [ih]

theorem mem_stableSortByDesc (key : α → Int) (l : List α) (y : α) :
    y ∈ stableSortByDesc key l ↔ y ∈ l := by
  unfold stableSortByDesc
  have h : ∀ (l acc : List α),
      y ∈ l.foldl (fun acc x => insertByKeyDesc key x acc) acc ↔ y ∈ acc ∨ y ∈ l := by
    intro l
    induction l with
    | nil => simp
    | cons a t ih =>
      intro acc
      rw [List.foldl_cons, ih, mem_insertByKeyDesc]
      simp only [List.mem_cons]
      tauto
  rw [h]
  simp

theorem length_stableSortByDesc (key : α → Int) (l : List α) :
    (stableSortByDesc key l).length = l.length := by
  unfold stableSortByDesc
  have h : ∀ (l acc : List α),
      (l.foldl (fun acc x => insertByKeyDesc key x acc) acc).length = acc.length + l.length := by
    intro l
    induction l with
    | nil => simp
    | cons a t ih =>
      intro acc
      rw [List.foldl_cons, ih, length_insertByKeyDesc, List.length_cons]
      omega
  rw [h]
  simp

theorem pairwise_insertByKeyDesc (key : α → Int) (x : α) (l : List α)
    (h : l.Pairwise (fun a b => key b ≤ key a)) :
    (insertByKeyDesc key x l).Pairwise (fun a b => key b ≤ key a) := by
  induction l with
  | nil => simp [insertByKeyDesc]
  | cons a t ih =>
    rw [List.pairwise_cons] at h
    unfold insertByKeyDesc
    split
    · rename_i hlt
      rw [List.pairwise_cons]
      refine ⟨?_, List.pairwise_cons.mpr h⟩
      intro z hz
      rcases List.mem_cons.mp hz with rfl | hz'
      · omega
      · have := h.1 z hz'
        omega
    · rename_i hge
      rw [List.pairwise_cons]
      refine ⟨?_, ih h.2⟩
      intro z hz
      rcases (mem_insertByKeyDesc key x t z).mp hz with rfl | hz'
      · omega
      · exact h.1 z hz'

theorem pairwise_stableSortByDesc (key : α → Int) (l : List α) :
    (stableSortByDesc key l).Pairwise (fun a b => key b ≤ key a) := by
  unfold stableSortByDesc
  have h : ∀ (l acc : List α), acc.Pairwise (fun a b => key b ≤ key a) →
      (l.foldl (fun acc x => insertByKeyDesc key x acc) acc).Pairwise
        (fun a b => key b ≤ key a) := by
    intro l
    induction l with
    | nil => intro acc hacc; simpa using hacc
    | cons a t ih => intro acc hacc; exact ih _ (pairwise_insertByKeyDesc key a acc hacc)
  exact h l [] (by simp)

theorem filter_insertByKeyDesc (key : α → Int) (x : α) (l : List α) (k : Int)
    (hsorted : l.Pairwise (fun a b => key b ≤ key a)) :
    (insertByKeyDesc key x l).filter (fun a => decide (key a = k)) =
      if key x = k then l.filter (fun a => decide (key a = k)) ++ [x]
      else l.filter (fun a => decide (key a = k)) := by
  induction l with
  | nil =>
    unfold insertByKeyDesc
    by_cases hk : key x = k <;> simp [hk]
  | cons a t ih =>
    rw [List.pairwise_cons] at hsorted
    unfold insertByKeyDesc
    split
    · rename_i hlt
      by_cases hk : key x = k
      · have hnil : (a :: t).filter (fun a => decide (key a = k)) = [] := by
          rw [List.filter_eq_nil_iff]
          intro b hb
          rcases List.mem_cons.mp hb with rfl | hb'
          · simp only [decide_eq_true_eq]
            omega
          · have := hsorted.1 b hb'
            simp only [decide_eq_true_eq]
            omega
        rw [if_pos hk, List.filter_cons, if_pos (by simp [hk]), hnil]
        rfl
      · rw [if_neg hk, List.filter_cons, if_neg (by simp [hk])]
    · rename_i hge
      rw [List.filter_cons, List.filter_cons]
      have iht := ih hsorted.2
      by_cases hk : key x = k
      · rw [if_pos hk] at iht
        rw [iht, if_pos hk]
        by_cases ha : key a = k
        · rw [if_pos (by simp [ha]), if_pos (by simp [ha])]
          rfl
        · rw [if_neg (by simp [ha]), if_neg (by simp [ha])]
      · rw [if_neg hk] at iht
        rw [iht, if_neg hk]

theorem filter_stableSortByDesc (key : α → Int) (l : List α) (k : Int) :
    (stableSortByDesc key l).filter (fun a => decide (key a = k)) =
      l.filter (fun a => decide (key a = k)) := by
  unfold stableSortByDesc
  have h : ∀ (l acc : List α), acc.Pairwise (fun a b => key b ≤ key a) →
      (l.foldl (fun acc x => insertByKeyDesc key x acc) acc).filter
          (fun a => decide (key a = k)) =
        acc.filter (fun a => decide (key a = k)) ++ l.filter (fun a => decide (key a = k)) := by
    intro l
    induction l with
    | nil => intro acc hacc; simp
    | cons a t ih =>
      intro acc hacc
      rw [List.foldl_cons, ih _ (pairwise_insertByKeyDesc key a acc hacc),
        filter_insertByKeyDesc key a acc k hacc, List.filter_cons]
      by_cases hk : key a = k
      · rw [if_pos hk, if_pos (by simp [hk])]
        simp
      · rw [if_neg hk, if_neg (by simp [hk])]
  rw [h l [] (by simp)]
  simp

/-! ## Lemmas: the multiple-sponsors aggregation -/

theorem mem_uniqueSponsorsFor (g : QGraph) (nid s : String) :
    s ∈ uniqueSponsorsFor g nid ↔
      ∃ l ∈ g.links, l.target.resolve = nid ∧
        strContains (strLower l.type) "sponsor_to_actor" = true ∧ l.source.resolve = s := by
  unfold uniqueSponsorsFor sponsorEdgesFor
  rw [mem_jsSetOfList]
  constructor
  · intro hs
    obtain ⟨e, he, rfl⟩ := List.mem_map.mp hs
    rw [List.mem_filter] at he
    have hb := he.2
    simp only [Bool.and_eq_true, decide_eq_true_eq] at hb
    exact ⟨e, he.1, hb.1, hb.2, rfl⟩
  · rintro ⟨l, hl, ht, hc, rfl⟩
    exact List.mem_map.mpr ⟨l, List.mem_filter.mpr ⟨hl, by simp [ht, hc]⟩, rfl⟩

theorem nodup_uniqueSponsorsFor (g : QGraph) (nid : String) :
    (uniqueSponsorsFor g nid).Nodup :=
  nodup_jsSetOfList _

theorem mem_multiSponsorEntries (g : QGraph) (e : SponsorEntry) :
    e ∈ multiSponsorEntries g ↔
      ∃ n ∈ g.nodes, n.type = "actor" ∧ 2 ≤ (uniqueSponsorsFor g n.id).length ∧
        e = ⟨n.id, (uniqueSponsorsFor g n.id).length, uniqueSponsorsFor g n.id, n.degree⟩ := by
  unfold multiSponsorEntries actorNodes
  rw [List.mem_filterMap]
  constructor
  · rintro ⟨n, hn, hf⟩
    rw [List.mem_filter] at hn
    by_cases hlen : (uniqueSponsorsFor g n.id).length > 1
    · rw [if_pos hlen] at hf
      refine ⟨n, hn.1, by simpa using hn.2, by omega, (Option.some.inj hf).symm⟩
    · rw [if_neg hlen] at hf
      exact absurd hf (by simp)
  · rintro ⟨n, hn, hty, hlen, rfl⟩
    refine ⟨n, List.mem_filter.mpr ⟨hn, by simp [hty]⟩, ?_⟩
    rw [if_pos (by omega)]

/-! ## Claim C7 -/

/-- Claim C7: for a question matching the multiple-sponsors trigger the
evaluator returns exactly the actor-type nodes backed by at least two
distinct sponsors over `sponsor_to_actor` edges targeting them, each
carrying its distinct-sponsor count, discovery-ordered sponsor list and
degree, with the result count equal to the list length, sorted descending
by sponsor count, and ties kept in encounter order (the filter at each
count value equals the encounter-ordered list's). -/
theorem spec_C7 : ∀ (g : QGraph) (q : String), trigMultiple (strLower q) = true →
    ∃ entries,
      analyzeQuery g q = QueryResult.multipleSponsors entries.length entries ∧
      (∀ e, e ∈ entries ↔
        ∃ n ∈ g.nodes, n.type = "actor" ∧ 2 ≤ (uniqueSponsorsFor g n.id).length ∧
          e = ⟨n.id, (uniqueSponsorsFor g n.id).length, uniqueSponsorsFor g n.id, n.degree⟩) ∧
      (∀ nid s, s ∈ uniqueSponsorsFor g nid ↔
        ∃ l ∈ g.links, l.target.resolve = nid ∧
          strContains (strLower l.type) "sponsor_to_actor" = true ∧ l.source.resolve = s) ∧
      (∀ nid, (uniqueSponsorsFor g nid).Nodup) ∧
      entries.Pairwise (fun a b => b.sponsorCount ≤ a.sponsorCount) ∧
      (∀ k, entries.filter (fun e => decide ((e.sponsorCount : Int) = k)) =
        (multiSponsorEntries g).filter (fun e => decide ((e.sponsorCount : Int) = k))) := by
  intro g q htrig
  refine ⟨stableSortByDesc (fun e => (e.sponsorCount : Int)) (multiSponsorEntries g),
    ?_, ?_, ?_, ?_, ?_, ?_⟩
  · simp only [analyzeQuery]
    rw [if_pos htrig, length_stableSortByDesc]
  · intro e
    rw [mem_stableSortByDesc, mem_multiSponsorEntries]
  · exact mem_uniqueSponsorsFor g
  · exact fun nid => nodup_uniqueSponsorsFor g nid
  · have h := pairwise_stableSortByDesc (fun e => (e.sponsorCount : Int)) (multiSponsorEntries g)
    exact h.imp (fun hab => by exact_mod_cast hab)
  · intro k
    exact filter_stableSortByDesc _ _ k

/-- Claim C7, witness: the spec scenario — actor `A` (two sponsors) is
returned with count 2 and sponsors `X`, `Y`; actor `B` (one sponsor) is
absent. -/
theorem spec_C7_witness :
    trigMultiple (strLower "which actors have multiple state sponsors?") = true ∧
      analyzeQuery exC7 "which actors have multiple state sponsors?" =
        QueryResult.multipleSponsors 1 [⟨"A", 2, ["X", "Y"], 3⟩] ∧
      (∃ entries, analyzeQuery exC7 "which actors have multiple state sponsors?" =
        QueryResult.multipleSponsors entries.length entries) :=
  ⟨by decide, by decide,
    Exists.elim (spec_C7 exC7 "which actors have multiple state sponsors?" (by decide))
      (fun entries h => ⟨entries, h.1⟩)⟩

/-! ## Claim C8 -/

/-- Claim C8: evaluation is total and always yields one of the five tagged
result shapes; the unknown shape only ever carries the fixed guidance
message, and a question matching none of the four triggers yields exactly
that unknown result. -/
theorem spec_C8 : ∀ (g : QGraph) (q : String),
    ((∃ c r, analyzeQuery g q = QueryResult.multipleSponsors c r) ∨
      (∃ s r, analyzeQuery g q = QueryResult.countryTargets s r) ∨
      (∃ r, analyzeQuery g q = QueryResult.mostTargeted r) ∨
      (∃ c r, analyzeQuery g q = QueryResult.mostActive c r) ∨
      (∃ m, analyzeQuery g q = QueryResult.unknown m)) ∧
    (∀ m, analyzeQuery g q = QueryResult.unknown m → m = unknownMessage) ∧
    ((trigMultiple (strLower q) = false ∧ trigCountry (strLower q) = false ∧
      trigMostTargeted (strLower q) = false ∧ trigMostActive (strLower q) = false) →
      analyzeQuery g q = QueryResult.unknown unknownMessage) := by
  intro g q
  refine ⟨?_, ?_, ?_⟩
  · cases h : analyzeQuery g q with
    | multipleSponsors c r => exact Or.inl ⟨c, r, rfl⟩
    | countryTargets s r => exact Or.inr (Or.inl ⟨s, r, rfl⟩)
    | mostTargeted r => exact Or.inr (Or.inr (Or.inl ⟨r, rfl⟩))
    | mostActive c r => exact Or.inr (Or.inr (Or.inr (Or.inl ⟨c, r, rfl⟩)))
    | unknown m => exact Or.inr (Or.inr (Or.inr (Or.inr ⟨m, rfl⟩)))
  · intro m hm
    simp only [analyzeQuery] at hm
    by_cases h1 : trigMultiple (strLower q) = true
    · rw [if_pos h1] at hm
      exact absurd hm (by simp)
    · rw [if_neg h1] at hm
      by_cases h2 : trigCountry (strLower q) = true
      · rw [if_pos h2] at hm
        exact absurd hm (by simp)
      · rw [if_neg h2] at hm
        by_cases h3 : trigMostTargeted (strLower q) = true
        · rw [if_pos h3] at hm
          exact absurd hm (by simp)
        · rw [if_neg h3] at hm
          by_cases h4 : trigMostActive (strLower q) = true
          · rw [if_pos h4] at hm
            exact absurd hm (by simp)
          · rw [if_neg h4] at hm
            exact (QueryResult.unknown.inj hm).symm
  · rintro ⟨h1, h2, h3, h4⟩
    simp only [analyzeQuery]
    rw [if_neg (by simp [h1]), if_neg (by simp [h2]), if_neg (by simp [h3]),
      if_neg (by simp [h4])]

/-- Claim C8, witness: the unrecognized question `hello` yields the unknown
result with the fixed guidance message. -/
theorem spec_C8_witness :
    (trigMultiple (strLower "hello") = false ∧ trigCountry (strLower "hello") = false ∧
      trigMostTargeted (strLower "hello") = false ∧ trigMostActive (strLower "hello") = false) ∧
      analyzeQuery exC8 "hello" = QueryResult.unknown unknownMessage :=
  ⟨by decide, (spec_C8 exC8 "hello").2.2 (by decide)⟩

end CyberViz
